import Mathlib

/-! # Stack-based infix expression evaluator (`projoct.c`)

A shallow embedding of the C program: the two global stacks with their `top`
indices, the precedence and arithmetic helpers, the shunting-yard converter
`infix_to_postfix` and the postfix evaluator `evaluate_postfix`.

* `exit(1)` after a diagnostic is the outcome `Outcome.exit`.
* An array access outside `[0, MAX_STACK_SIZE)` is undefined behaviour in C; the
  embedding stops there with `Outcome.outOfBounds idx`.
* `double` arithmetic and `atof` are the parameter `Arith V`.
* A C string is the list of its characters before the terminator.
-/

namespace Projoct

/-! ## Configuration and outcomes -/

/-- Capacity of both global arrays (`#define MAX_STACK_SIZE 100`). -/
def MAX_STACK_SIZE : Int := 100

/-- Size of the buffers of `main` (`#define MAX_EXPRESSION_LENGTH 256`). -/
def MAX_EXPRESSION_LENGTH : Nat := 256

/-- The diagnostics after which the program calls `exit(1)`. -/
inductive Failure where
  | DivisionByZero
  | MismatchedParenthesis
  | UnclosedParenthesis
  | MalformedPostfix
  deriving DecidableEq, Repr

/-- What a call does: it returns, it exits with a diagnostic, or it accesses a
stack array at an index outside the array. -/
inductive Outcome (α : Type) where
  | ok (a : α)
  | exit (f : Failure)
  | outOfBounds (idx : Int)
  deriving DecidableEq, Repr

/-- Sequencing: the continuation runs only after a normal return. -/
def Outcome.bind {α β : Type} (x : Outcome α) (k : α → Outcome β) : Outcome β :=
  match x with
  | .ok a => k a
  | .exit f => .exit f
  | .outOfBounds i => .outOfBounds i

/-- Apply a function to the returned value. -/
def Outcome.map {α β : Type} (g : α → β) (x : Outcome α) : Outcome β :=
  x.bind (fun a => .ok (g a))

/-- The floating-point operations the program takes from the C library and the
compiler: `+ - * /` on `double`, `pow`, the test `b == 0.0`, the constant
`0.0`, and `atof`. -/
structure Arith (V : Type) where
  add : V → V → V
  sub : V → V → V
  mul : V → V → V
  div : V → V → V
  pow : V → V → V
  isZero : V → Bool
  zero : V
  atof : List Char → V

/-! ## Global stacks -/

/-- The four globals: `value_stack`, `op_stack`, `top_val`, `top_op`. The
arrays are indexed by the C `int` index; only `[0, MAX_STACK_SIZE)` is inside. -/
structure Stacks (V : Type) where
  value_stack : Int → V
  op_stack : Int → Char
  top_val : Int
  top_op : Int

variable {V : Type}

/-- Whether an index is inside an array of `MAX_STACK_SIZE` entries. -/
def inBounds (i : Int) : Bool := decide (0 ≤ i) && decide (i < MAX_STACK_SIZE)

/-- Body of `reset_stacks`: both tops go back to `-1`, the arrays stay. -/
def reset_stacks (S : Stacks V) : Stacks V :=
  { S with top_val := -1, top_op := -1 }

/-- The store `value_stack[++top_val] = val`. -/
def push_val (S : Stacks V) (val : V) : Outcome (Stacks V) :=
  let t := S.top_val + 1
  if inBounds t then
    .ok { S with top_val := t, value_stack := Function.update S.value_stack t val }
  else .outOfBounds t

/-- The read `value_stack[top_val--]`. -/
def pop_val (S : Stacks V) : Outcome (V × Stacks V) :=
  if inBounds S.top_val then
    .ok (S.value_stack S.top_val, { S with top_val := S.top_val - 1 })
  else .outOfBounds S.top_val

/-- The test `top_val == -1`. -/
def is_empty_val (S : Stacks V) : Bool := S.top_val == -1

/-- The store `op_stack[++top_op] = op`. -/
def push_op (S : Stacks V) (op : Char) : Outcome (Stacks V) :=
  let t := S.top_op + 1
  if inBounds t then
    .ok { S with top_op := t, op_stack := Function.update S.op_stack t op }
  else .outOfBounds t

/-- The read `op_stack[top_op--]`. -/
def pop_op (S : Stacks V) : Outcome (Char × Stacks V) :=
  if inBounds S.top_op then
    .ok (S.op_stack S.top_op, { S with top_op := S.top_op - 1 })
  else .outOfBounds S.top_op

/-- The read `op_stack[top_op]`. -/
def peek_op (S : Stacks V) : Outcome Char :=
  if inBounds S.top_op then .ok (S.op_stack S.top_op) else .outOfBounds S.top_op

/-- The test `top_op == -1`. -/
def is_empty_op (S : Stacks V) : Bool := S.top_op == -1

/-! ## Precedence and arithmetic -/

/-- Precedence of an operator character; `0` for everything unlisted. -/
def precedence (op : Char) : Nat :=
  if op = '^' then 3
  else if op = '*' ∨ op = '/' then 2
  else if op = '+' ∨ op = '-' then 1
  else 0

/-- The `switch` of `apply_op`; division by a zero right operand exits. -/
def apply_op (A : Arith V) (a b : V) (op : Char) : Outcome V :=
  if op = '+' then .ok (A.add a b)
  else if op = '-' then .ok (A.sub a b)
  else if op = '*' then .ok (A.mul a b)
  else if op = '/' then
    if A.isZero b then .exit .DivisionByZero else .ok (A.div a b)
  else if op = '^' then .ok (A.pow a b)
  else .ok A.zero

/-! ## Infix to postfix -/

/-- The test `isdigit(c) || c == '.'` of the operand branch. -/
def isNumChar (c : Char) : Bool := c.isDigit || c == '.'

/-- The test `token == ' ' || token == '\n' || token == '\r'`. -/
def isSkipped (c : Char) : Bool := c == ' ' || c == '\n' || c == '\r'

/-- The two stores `postfix[j++] = c; postfix[j++] = ' '`. -/
def emit (out : List Char) (c : Char) : List Char := out ++ [c, ' ']

/-- Inner loop of the `)` branch: pop and emit while the stack is non-empty and
its top is not `(`. The first argument bounds the iterations; the number of
entries on the stack is enough. -/
def pop_to_paren : Nat → Stacks V → List Char → Outcome (Stacks V × List Char)
  | 0, S, out => .ok (S, out)
  | n + 1, S, out =>
    if is_empty_op S then .ok (S, out)
    else (peek_op S).bind fun top =>
      if top ≠ '(' then
        (pop_op S).bind fun r => pop_to_paren n r.2 (emit out r.1)
      else .ok (S, out)

/-- Inner loop of the operator branch: pop and emit while the stack is
non-empty, `precedence(top) >= precedence(token)`, and the top is not `(`. -/
def pop_higher (token : Char) : Nat → Stacks V → List Char → Outcome (Stacks V × List Char)
  | 0, S, out => .ok (S, out)
  | n + 1, S, out =>
    if is_empty_op S then .ok (S, out)
    else (peek_op S).bind fun top =>
      if precedence top ≥ precedence token then
        if top = '(' then .ok (S, out)
        else (pop_op S).bind fun r => pop_higher token n r.2 (emit out r.1)
      else .ok (S, out)

/-- Final loop: pop and emit everything left; a `(` on the way exits. -/
def pop_rest : Nat → Stacks V → List Char → Outcome (Stacks V × List Char)
  | 0, S, out => .ok (S, out)
  | n + 1, S, out =>
    if is_empty_op S then .ok (S, out)
    else (peek_op S).bind fun top =>
      if top = '(' then .exit .UnclosedParenthesis
      else (pop_op S).bind fun r => pop_rest n r.2 (emit out r.1)

/-- Number of entries on the operator stack, the bound for the pop loops. -/
def op_count (S : Stacks V) : Nat := (S.top_op + 1).toNat

/-- The `)` branch: pop to the matching `(` and discard it, or exit. -/
def close_paren (S : Stacks V) (out : List Char) : Outcome (Stacks V × List Char) :=
  (pop_to_paren (op_count S) S out).bind fun r =>
    if is_empty_op r.1 then .exit .MismatchedParenthesis
    else (pop_op r.1).bind fun q =>
      if q.1 ≠ '(' then .exit .MismatchedParenthesis else .ok (q.2, r.2)

/-- The operator branch: pop what binds at least as tightly, then push. -/
def operator (S : Stacks V) (out : List Char) (token : Char) :
    Outcome (Stacks V × List Char) :=
  (pop_higher token (op_count S) S out).bind fun r =>
    (push_op r.1 token).bind fun S2 => .ok (S2, r.2)

/-- The scanning `for` loop over the characters from index `i` on (the list is
`infix + i`); `out` is `postfix[0..j)`. The first argument bounds the
iterations; the number of remaining characters is enough, since every
iteration consumes at least one. -/
def scan : Nat → List Char → Stacks V → List Char → Outcome (Stacks V × List Char)
  | 0, _, S, out => .ok (S, out)
  | _ + 1, [], S, out => .ok (S, out)
  | n + 1, token :: rest, S, out =>
    if isSkipped token then scan n rest S out
    else if isNumChar token then
      scan n (rest.dropWhile isNumChar)
        S (out ++ (token :: rest.takeWhile isNumChar) ++ [' '])
    else if token = '(' then
      (push_op S token).bind fun S1 => scan n rest S1 out
    else if token = ')' then
      (close_paren S out).bind fun r => scan n rest r.1 r.2
    else
      (operator S out token).bind fun r => scan n rest r.1 r.2

/-- The function `infix_to_postfix`: the text written to `postfix` (before the
terminator) and the globals it leaves. -/
def infix_to_postfix (S : Stacks V) (line : List Char) :
    Outcome (List Char × Stacks V) :=
  (scan line.length line (reset_stacks S) []).bind fun r =>
    (pop_rest (op_count r.1) r.1 r.2).bind fun q => .ok (q.2, q.1)

/-! ## Postfix evaluation -/

/-- All tokens that the calls `strtok(postfix, " ")`, `strtok(NULL, " ")`
return: the maximal runs without a space; `cur` is the run being read. -/
def strtok_from : List Char → List Char → List (List Char)
  | [], cur => if cur = [] then [] else [cur]
  | c :: cs, cur =>
    if c = ' ' then
      if cur = [] then strtok_from cs [] else cur :: strtok_from cs []
    else strtok_from cs (cur ++ [c])

/-- The token sequence of a postfix string. -/
def strtok (pf : List Char) : List (List Char) := strtok_from pf []

/-- The character `token[k]`; past the end it is the terminator. -/
def token_at (token : List Char) (k : Nat) : Char := token.getD k '\x00'

/-- The operand test
`isdigit(token[0]) || (token[0] == '-' && isdigit(token[1]))`. -/
def is_operand (token : List Char) : Bool :=
  (token_at token 0).isDigit || (token_at token 0 == '-' && (token_at token 1).isDigit)

/-- One iteration of the token loop of `evaluate_postfix`. -/
def eval_token (A : Arith V) (S : Stacks V) (token : List Char) : Outcome (Stacks V) :=
  if is_operand token then push_val S (A.atof token)
  else
    (pop_val S).bind fun r2 =>
      (pop_val r2.2).bind fun r1 =>
        (apply_op A r1.1 r2.1 (token_at token 0)).bind fun v => push_val r1.2 v

/-- The token loop of `evaluate_postfix`. -/
def eval_loop (A : Arith V) : List (List Char) → Stacks V → Outcome (Stacks V)
  | [], S => .ok S
  | token :: rest, S => (eval_token A S token).bind fun S1 => eval_loop A rest S1

/-- The function `evaluate_postfix`: the value returned and the globals left. -/
def evaluate_postfix (A : Arith V) (S : Stacks V) (pf : List Char) :
    Outcome (V × Stacks V) :=
  (eval_loop A (strtok pf) (reset_stacks S)).bind fun S1 =>
    if S1.top_val = 0 then pop_val S1 else .exit .MalformedPostfix

/-- The two calls of `main` in sequence: convert, then evaluate the copy of the
postfix text. -/
def convert_then_evaluate (A : Arith V) (S : Stacks V) (line : List Char) :
    Outcome (V × Stacks V) :=
  ( infix_to_postfix S line).bind fun r => evaluate_postfix A r.2 r.1

/-! ## List view of the stacks

The entries of a stack from the top down, and the same loops over that list.
The theorems below show that the array code and the list code agree. -/

/-- The entries `arr[n-1], ..., arr[0]`. -/
def stack_list {α : Type} (arr : Int → α) : Nat → List α
  | 0 => []
  | n + 1 => arr n :: stack_list arr n

/-- The operator stack, top first. -/
def op_list (S : Stacks V) : List Char := stack_list S.op_stack (op_count S)

/-- Number of entries on the value stack. -/
def val_count (S : Stacks V) : Nat := (S.top_val + 1).toNat

/-- The value stack, top first. -/
def val_list (S : Stacks V) : List V := stack_list S.value_stack (val_count S)

/-- A push on a stack list: the store index is the length. -/
def pushL {α : Type} (l : List α) (x : α) : Outcome (List α) :=
  if inBounds l.length then .ok (x :: l) else .outOfBounds l.length

/-- List form of `pop_to_paren`. -/
def pop_to_parenL : List Char → List Char → List Char × List Char
  | [], out => ([], out)
  | top :: l, out => if top ≠ '(' then pop_to_parenL l (emit out top) else (top :: l, out)

/-- List form of `pop_higher`. -/
def pop_higherL (token : Char) : List Char → List Char → List Char × List Char
  | [], out => ([], out)
  | top :: l, out =>
    if precedence top ≥ precedence token then
      if top = '(' then (top :: l, out) else pop_higherL token l (emit out top)
    else (top :: l, out)

/-- List form of `pop_rest`. -/
def pop_restL : List Char → List Char → Outcome (List Char × List Char)
  | [], out => .ok ([], out)
  | top :: l, out =>
    if top = '(' then .exit .UnclosedParenthesis else pop_restL l (emit out top)

/-- List form of `close_paren`. -/
def close_parenL (l out : List Char) : Outcome (List Char × List Char) :=
  match pop_to_parenL l out with
  | ([], _) => .exit .MismatchedParenthesis
  | (top :: l1, out1) =>
    if top ≠ '(' then .exit .MismatchedParenthesis else .ok (l1, out1)

/-- List form of `operator`. -/
def operatorL (l out : List Char) (token : Char) : Outcome (List Char × List Char) :=
  (pushL (pop_higherL token l out).1 token).bind fun l2 =>
    .ok (l2, (pop_higherL token l out).2)

/-- List form of `scan`. -/
def scanL : Nat → List Char → List Char → List Char → Outcome (List Char × List Char)
  | 0, _, l, out => .ok (l, out)
  | _ + 1, [], l, out => .ok (l, out)
  | n + 1, token :: rest, l, out =>
    if isSkipped token then scanL n rest l out
    else if isNumChar token then
      scanL n (rest.dropWhile isNumChar)
        l (out ++ (token :: rest.takeWhile isNumChar) ++ [' '])
    else if token = '(' then
      (pushL l token).bind fun l1 => scanL n rest l1 out
    else if token = ')' then
      (close_parenL l out).bind fun r => scanL n rest r.1 r.2
    else
      (operatorL l out token).bind fun r => scanL n rest r.1 r.2

/-- The scanning loop on a stack list, with the bound that is always enough. -/
def runL (s l out : List Char) : Outcome (List Char × List Char) :=
  scanL s.length s l out

/-- List form of the whole conversion, from an empty stack. -/
def convertL (s : List Char) : Outcome (List Char) :=
  (runL s [] []).bind fun r => (pop_restL r.1 r.2).bind fun q => .ok q.2

/-- List form of `eval_token`. -/
def eval_tokenL (A : Arith V) (vs : List V) (token : List Char) : Outcome (List V) :=
  if is_operand token then pushL vs (A.atof token)
  else
    match vs with
    | [] => .outOfBounds (-1)
    | [_] => .outOfBounds (-1)
    | b :: a :: rest =>
      (apply_op A a b (token_at token 0)).bind fun v => pushL rest v

/-- List form of `eval_loop`. -/
def eval_loopL (A : Arith V) : List (List Char) → List V → Outcome (List V)
  | [], vs => .ok vs
  | token :: rest, vs => (eval_tokenL A vs token).bind fun vs1 => eval_loopL A rest vs1

/-- List form of `evaluate_postfix` on the token sequence. -/
def evaluateL (A : Arith V) (tokens : List (List Char)) : Outcome V :=
  (eval_loopL A tokens []).bind fun vs =>
    match vs with
    | [v] => .ok v
    | _ => .exit .MalformedPostfix

/-- Two outcomes agree: both return related values, or both stop the same way. -/
def Outcome.Rel {α β : Type} (R : α → β → Prop) : Outcome α → Outcome β → Prop
  | .ok a, .ok b => R a b
  | .exit f, .exit g => f = g
  | .outOfBounds i, .outOfBounds j => i = j
  | _, _ => False

/-- The operator top is between `-1` and the last index. -/
def op_ok (S : Stacks V) : Prop := -1 ≤ S.top_op ∧ S.top_op < MAX_STACK_SIZE

/-- The value top is between `-1` and the last index. -/
def val_ok (S : Stacks V) : Prop := -1 ≤ S.top_val ∧ S.top_val < MAX_STACK_SIZE

/-- The state and output of the array loops seen as a stack list and output. -/
def OpView (r : Stacks V × List Char) (q : List Char × List Char) : Prop :=
  op_ok r.1 ∧ op_list r.1 = q.1 ∧ r.2 = q.2

/-! ## Expressions

The concrete syntax of an infix expression, used to state what the converter
and the evaluator compute on well-formed input. -/

/-- An infix expression as written: a number literal after `sp` spaces; a
parenthesised expression (`sp` spaces, `(`, the expression, `sp2` spaces, `)`);
or a binary operation (left operand, `sp` spaces, the operator, right operand). -/
inductive Expr where
  | num (sp : Nat) (lit : List Char)
  | paren (sp : Nat) (e : Expr) (sp2 : Nat)
  | bin (l : Expr) (sp : Nat) (op : Char) (r : Expr)
  deriving DecidableEq, Repr

/-- A run of `n` spaces. -/
def spaces (n : Nat) : List Char := List.replicate n ' '

/-- The text of an expression. -/
def render : Expr → List Char
  | .num sp lit => spaces sp ++ lit
  | .paren sp e sp2 => spaces sp ++ '(' :: (render e ++ (spaces sp2 ++ [')']))
  | .bin l sp op r => render l ++ (spaces sp ++ op :: render r)

/-- The five binary operators. -/
def isBinOp (c : Char) : Bool := c == '+' || c == '-' || c == '*' || c == '/' || c == '^'

/-- A number token of the converter: a non-empty run of digits and points. -/
def isNumber (lit : List Char) : Bool := !lit.isEmpty && lit.all isNumChar

/-- A decimal literal: it starts with a digit and holds digits and at most one
point. -/
def isDecimal (lit : List Char) : Bool :=
  (token_at lit 0).isDigit && lit.all isNumChar && decide (lit.count '.' ≤ 1)

/-- Binding strength of the outermost construct: the precedence of the root
operator; numbers and parenthesised expressions bind tightest. -/
def level : Expr → Nat
  | .num _ _ => 4
  | .paren _ _ _ => 4
  | .bin _ _ op _ => precedence op

/-- The tree is the parse tree of its text: parentheses group first, then
precedence, and equal precedence groups to the left. So the left operand of an
operator binds at least as tightly as the operator and the right operand
strictly tighter. -/
def isParse : Expr → Bool
  | .num _ lit => isNumber lit
  | .paren _ e _ => isParse e
  | .bin l _ op r =>
    isBinOp op && isParse l && isParse r &&
      decide (precedence op ≤ level l) && decide (precedence op < level r)

/-- No parenthesised sub-expression. -/
def parenFree : Expr → Bool
  | .num _ _ => true
  | .paren _ _ _ => false
  | .bin l _ _ r => parenFree l && parenFree r

/-- Every number is a decimal literal. -/
def decimalLits : Expr → Bool
  | .num _ lit => isDecimal lit
  | .paren _ e _ => decimalLits e
  | .bin l _ _ r => decimalLits l && decimalLits r

/-- Post-order traversal as text: each token followed by one space. -/
def postorder : Expr → List Char
  | .num _ lit => lit ++ [' ']
  | .paren _ e _ => postorder e
  | .bin l _ op r => postorder l ++ (postorder r ++ [op, ' '])

/-- Post-order traversal as a token sequence. -/
def postTokens : Expr → List (List Char)
  | .num _ lit => [lit]
  | .paren _ e _ => postTokens e
  | .bin l _ op r => postTokens l ++ (postTokens r ++ [[op]])

/-- The most pending operators and open parentheses at any moment while the
expression is scanned. -/
def opDepth : Expr → Nat
  | .num _ _ => 0
  | .paren _ e _ => 1 + opDepth e
  | .bin l _ _ r => max (opDepth l) (1 + opDepth r)

/-- The most values held at any moment while the post-order is evaluated. -/
def valDepth : Expr → Nat
  | .num _ _ => 1
  | .paren _ e _ => valDepth e
  | .bin l _ _ r => max (valDepth l) (1 + valDepth r)

/-- Direct evaluation of the tree: operands left to right, then the operator by
`apply_op`. -/
def evalExpr (A : Arith V) : Expr → Outcome V
  | .num _ lit => .ok (A.atof lit)
  | .paren _ e _ => evalExpr A e
  | .bin l _ op r =>
    (evalExpr A l).bind fun a => (evalExpr A r).bind fun b => apply_op A a b op

/-- The operators still on the stack when the scan leaves the expression, top
first: those of the right spine. -/
def pending : Expr → List Char
  | .num _ _ => []
  | .paren _ _ _ => []
  | .bin _ _ op r => pending r ++ [op]

/-- The text emitted while the expression is scanned. -/
def emitted : Expr → List Char
  | .num _ lit => lit ++ [' ']
  | .paren _ e _ => postorder e
  | .bin l _ _ r => postorder l ++ emitted r

/-- Each character of a list followed by one space. -/
def emitAll : List Char → List Char
  | [] => []
  | c :: cs => c :: ' ' :: emitAll cs

/-- The next character, if any, does not continue a number. -/
def boundary (rest : List Char) : Prop := ∀ c ∈ rest.head?, isNumChar c = false

/-- The top of the stack, if any, binds less tightly than `p`. -/
def lowTop (l : List Char) (p : Nat) : Prop := ∀ c ∈ l.head?, precedence c < p

/-- The state of the array evaluator seen as a value list. -/
def ValView (S : Stacks V) (vs : List V) : Prop := val_ok S ∧ val_list S = vs

/-! ## Exact arithmetic for concrete runs

The theorems hold for every `Arith V`. To run them on concrete inputs the
operations are instantiated with exact rational arithmetic, which agrees with
`double` arithmetic on the small values used. -/

/-- Value of a run of decimal digits, continuing from `acc`. -/
def digitsValue : List Char → Nat → Nat
  | [], acc => acc
  | c :: cs, acc => digitsValue cs (acc * 10 + (c.toNat - '0'.toNat))

/-- The decimal forms of `atof`: an optional `-`, digits, and an optional
point followed by digits; what follows is ignored. -/
def atofQ (s : List Char) : ℚ :=
  let body := if token_at s 0 = '-' then s.drop 1 else s
  let ip := body.takeWhile Char.isDigit
  let tail := body.dropWhile Char.isDigit
  let fp := if token_at tail 0 = '.' then (tail.drop 1).takeWhile Char.isDigit else []
  let m : ℚ := (digitsValue (ip ++ fp) 0 : ℚ) / (10 : ℚ) ^ fp.length
  if token_at s 0 = '-' then -m else m

/-- The function `pow` on rationals with an integer exponent; other exponents
are outside the rationals and are not used in the concrete runs. -/
def powQ (a b : ℚ) : ℚ := if b.den = 1 then a ^ b.num else 0

/-- Exact rational arithmetic. -/
def qArith : Arith ℚ where
  add := fun a b => a + b
  sub := fun a b => a - b
  mul := fun a b => a * b
  div := fun a b => a / b
  pow := powQ
  isZero := fun b => decide (b = 0)
  zero := 0
  atof := atofQ

/-- The globals at program start: zero-filled arrays, both tops `-1`. -/
def initStacks : Stacks ℚ where
  value_stack := fun _ => 0
  op_stack := fun _ => Char.ofNat 0
  top_val := -1
  top_op := -1

/-! ## Depth of a token sequence -/

/-- Every operator token finds at least two values when the sequence is
evaluated from a stack of `d` values. -/
def operatorsFed : List (List Char) → Nat → Bool
  | [], _ => true
  | token :: rest, d =>
    if is_operand token then operatorsFed rest (d + 1)
    else decide (2 ≤ d) && operatorsFed rest (d - 1)

/-- The most values on the stack at any moment, starting from `d` values. -/
def peakDepth : List (List Char) → Nat → Nat
  | [], d => d
  | token :: rest, d =>
    if is_operand token then max d (peakDepth rest (d + 1))
    else max d (peakDepth rest (d - 1))

/-- Number of operand tokens. -/
def operandCount (tokens : List (List Char)) : Nat := (tokens.filter is_operand).length

/-- Number of operator tokens. -/
def operatorCount (tokens : List (List Char)) : Nat :=
  (tokens.filter fun t => !is_operand t).length

/-! ## Parentheses of a text -/

/-- The number of open parentheses after the text, starting from `k` open
ones; `none` when a `)` comes with none open. -/
def parenBalance : Nat → List Char → Option Nat
  | k, [] => some k
  | k, c :: s =>
    if c = '(' then parenBalance (k + 1) s
    else if c = ')' then (if k = 0 then none else parenBalance (k - 1) s)
    else parenBalance k s

/-- The text `1 1 ... 1 ` of `n` number tokens. -/
def ones : Nat → List Char
  | 0 => []
  | n + 1 => '1' :: ' ' :: ones n

/-! ## Expressions without parentheses as token sequences -/

/-- An operator and the number after it, as written: spaces, the operator,
spaces, the literal. -/
structure OpNum where
  sp1 : Nat
  op : Char
  sp2 : Nat
  lit : List Char
  deriving DecidableEq, Repr

/-- The text of a sequence of operator-number pairs. -/
def renderPairs : List OpNum → List Char
  | [] => []
  | p :: rest => spaces p.sp1 ++ p.op :: (spaces p.sp2 ++ p.lit) ++ renderPairs rest

/-- Extend a tree on the right by an operator and an operand: the new operator
goes below every operator of the right spine that binds less tightly than it
and takes what binds at least as tightly as its left operand. -/
def attach (t : Expr) (sp : Nat) (op : Char) (n : Expr) : Expr :=
  match t with
  | .bin l s o r =>
    if precedence o < precedence op then .bin l s o (attach r sp op n) else .bin t sp op n
  | .num s lit => .bin (.num s lit) sp op n
  | .paren s e s2 => .bin (.paren s e s2) sp op n

/-- The parse tree of a number followed by operator-number pairs, read left to
right. -/
def parseFlat (first : Expr) : List OpNum → Expr
  | [] => first
  | p :: rest => parseFlat (attach first p.sp1 p.op (.num p.sp2 p.lit)) rest

/-! ## Tokens of the converter's output -/

/-- A character that the scan hands to the operator branch: it is not skipped,
not part of a number and not a parenthesis. -/
def isOperatorChar (c : Char) : Bool :=
  !isSkipped c && !isNumChar c && c != '(' && c != ')'

/-- The text of a token sequence: each token followed by one space. -/
def joinTokens : List (List Char) → List Char
  | [] => []
  | t :: ts => t ++ ' ' :: joinTokens ts

/-- The maximal runs of digits and points of a text, left to right; `cur` is
the run being read. -/
def numberRunsFrom : List Char → List Char → List (List Char)
  | [], cur => if cur = [] then [] else [cur]
  | c :: s, cur =>
    if isNumChar c then numberRunsFrom s (cur ++ [c])
    else if cur = [] then numberRunsFrom s [] else cur :: numberRunsFrom s []

/-- The maximal runs of digits and points of a text. -/
def numberRuns (s : List Char) : List (List Char) := numberRunsFrom s []

/-- The operator characters of a text, left to right. -/
def operatorChars (s : List Char) : List Char := s.filter isOperatorChar

/-- A token that starts with a digit or a point. -/
def isNumberToken (t : List Char) : Bool := isNumChar (token_at t 0)

/-- No two neighbouring characters are both spaces. -/
def NoDoubleSpace (out : List Char) : Prop :=
  List.Chain' (fun a b => ¬ (a = ' ' ∧ b = ' ')) out

/-- The entries of a stack list (top first) between two `(` markers grow
strictly in precedence from the bottom to the top: of two neighbouring entries
that are not `(`, the upper one has the higher precedence. -/
def SegInc (l : List Char) : Prop :=
  List.Chain' (fun x y => x ≠ '(' → y ≠ '(' → precedence y < precedence x) l

/-! ## One iteration of the scanning loop -/

/-- The body of the scanning `for` loop at the character `token`, with its
`i++`: the text left to scan, the globals and the output afterwards. -/
def scan_step (token : Char) (rest : List Char) (S : Stacks V) (out : List Char) :
    Outcome (List Char × Stacks V × List Char) :=
  if isSkipped token then .ok (rest, S, out)
  else if isNumChar token then
    .ok (rest.dropWhile isNumChar, S, out ++ (token :: rest.takeWhile isNumChar) ++ [' '])
  else if token = '(' then
    (push_op S token).bind fun S1 => .ok (rest, S1, out)
  else if token = ')' then
    (close_paren S out).bind fun r => .ok (rest, r.1, r.2)
  else
    (operator S out token).bind fun r => .ok (rest, r.1, r.2)

/-! ## A long line -/

/-- The line `1+1+...+1` with `n` plus signs. -/
def plusOnes : Nat → List Char
  | 0 => ['1']
  | n + 1 => '1' :: '+' :: plusOnes n

/-- The text `1 + 1 + ... 1 ` that the scan emits for `plusOnes n` when a `+`
is already pending. -/
def onesOut : Nat → List Char
  | 0 => ['1', ' ']
  | n + 1 => '1' :: ' ' :: '+' :: ' ' :: onesOut n

/-- The number tokens of a token sequence. -/
def numberTokens (ts : List (List Char)) : List (List Char) := ts.filter isNumberToken

/-- The operator tokens of a token sequence, each given by its character. -/
def operatorTokens (ts : List (List Char)) : List Char :=
  (ts.filter fun t => !isNumberToken t).map fun t => token_at t 0

/-- A token the converter emits: a number, or one operator character. -/
def TokOK (t : List Char) : Prop :=
  isNumber t = true ∨ ∃ c, t = [c] ∧ isOperatorChar c = true

/-- Every stack entry is `(` or an operator character. -/
def StackOK (l : List Char) : Prop := ∀ c ∈ l, c = '(' ∨ isOperatorChar c = true

/-- The entries of a stack list other than `(`. -/
def nonParens (l : List Char) : List Char := l.filter fun c => c != '('

/-! ## The array code and the list code agree -/

theorem Outcome.Rel.bind {α β γ δ : Type} {R : α → β → Prop} {R2 : γ → δ → Prop}
    {x : Outcome α} {y : Outcome β} {k : α → Outcome γ} {k2 : β → Outcome δ}
    (h : Outcome.Rel R x y) (hk : ∀ a b, R a b → Outcome.Rel R2 (k a) (k2 b)) :
    Outcome.Rel R2 (x.bind k) (y.bind k2) := by
  cases x <;> cases y <;> simp_all [Outcome.Rel, Outcome.bind]

theorem stack_list_length {α : Type} (arr : Int → α) (n : Nat) :
    (stack_list arr n).length = n := by
  induction n with
  | zero => rfl
  | succ k ih => simp [stack_list, ih]

theorem stack_list_update {α : Type} (arr : Int → α) (i : Int) (x : α) (n : Nat)
    (h : (n : Int) ≤ i) : stack_list (Function.update arr i x) n = stack_list arr n := by
  induction n with
  | zero => rfl
  | succ k ih =>
    have h1 : (k : Int) ≠ i := by push_cast at h; omega
    have h2 : (k : Int) ≤ i := by push_cast at h; omega
    simp only [stack_list, ih h2, Function.update_noteq h1]

theorem op_list_length (S : Stacks V) : (op_list S).length = op_count S :=
  stack_list_length _ _

theorem inBounds_iff (i : Int) : inBounds i = true ↔ 0 ≤ i ∧ i < 100 := by
  simp [inBounds, MAX_STACK_SIZE]

theorem push_op_sim (S : Stacks V) (c : Char) (h : op_ok S) :
    Outcome.Rel (fun S1 l1 => op_ok S1 ∧ op_list S1 = l1) (push_op S c) (pushL (op_list S) c) := by
  obtain ⟨h1, h2⟩ := h
  simp only [MAX_STACK_SIZE] at h2
  have hc : ((op_count S : Nat) : Int) = S.top_op + 1 := by
    simp only [op_count]; omega
  unfold push_op pushL
  simp only [op_list_length, hc]
  by_cases hb : inBounds (S.top_op + 1) = true
  · simp only [hb, if_true, Outcome.Rel]
    rw [inBounds_iff] at hb
    refine ⟨⟨by simp; omega, by simp [MAX_STACK_SIZE]; omega⟩, ?_⟩
    have hn : op_count S + 1 = (S.top_op + 1 + 1).toNat := by simp only [op_count]; omega
    simp only [op_list, op_count]
    rw [← op_count, ← hn, stack_list, hc, Function.update_same]
    rw [stack_list_update _ _ _ _ (by omega)]
  · simp only [hb, Outcome.Rel]
    simp

theorem pop_op_cons (S : Stacks V) (h : op_ok S) (hne : is_empty_op S = false) :
    ∃ c S1, pop_op S = .ok (c, S1) ∧ peek_op S = .ok c ∧ op_list S = c :: op_list S1 ∧
      op_ok S1 ∧ op_count S = op_count S1 + 1 := by
  obtain ⟨h1, h2⟩ := h
  simp only [MAX_STACK_SIZE] at h2
  have h0 : 0 ≤ S.top_op := by
    simp [is_empty_op] at hne; omega
  have hb : inBounds S.top_op = true := by rw [inBounds_iff]; omega
  refine ⟨S.op_stack S.top_op, { S with top_op := S.top_op - 1 }, ?_, ?_, ?_, ?_, ?_⟩
  · simp [pop_op, hb]
  · simp [peek_op, hb]
  · have hn : op_count S = (S.top_op - 1 + 1).toNat + 1 := by simp only [op_count]; omega
    have hk : (((S.top_op - 1 + 1).toNat : Nat) : Int) = S.top_op := by omega
    simp only [op_list, op_count] 
    rw [← op_count, hn, stack_list, hk]
  · exact ⟨by simp; omega, by simp [MAX_STACK_SIZE]; omega⟩
  · simp only [op_count]; omega

theorem op_list_nil (S : Stacks V) (_ : op_ok S) (he : is_empty_op S = true) :
    op_list S = [] := by
  have : S.top_op = -1 := by simpa [is_empty_op] using he
  simp [op_list, op_count, this, stack_list]

theorem op_count_zero (S : Stacks V) (h : op_ok S) (h0 : op_count S = 0) :
    is_empty_op S = true := by
  obtain ⟨h1, _⟩ := h
  simp only [op_count] at h0
  simp only [is_empty_op, beq_iff_eq]
  omega

theorem pop_to_paren_sim (n : Nat) (S : Stacks V) (out : List Char) (h : op_ok S)
    (hn : op_count S ≤ n) :
    Outcome.Rel OpView (pop_to_paren n S out) (.ok (pop_to_parenL (op_list S) out)) := by
  induction n generalizing S out with
  | zero =>
    have he := op_count_zero S h (by omega)
    simp [pop_to_paren, op_list_nil S h he, pop_to_parenL, Outcome.Rel, OpView, h]
  | succ k ih =>
    unfold pop_to_paren
    by_cases he : is_empty_op S = true
    · simp [he, op_list_nil S h he, pop_to_parenL, Outcome.Rel, OpView, h]
    · simp only [Bool.not_eq_true] at he
      obtain ⟨c, S1, hpop, hpeek, hl, hok1, hcnt⟩ := pop_op_cons S h he
      simp only [he, Bool.false_eq_true, if_false, hpeek, Outcome.bind, hl, pop_to_parenL]
      by_cases hc : c = '('
      · simp [hc, Outcome.Rel, OpView, h, hl]
      · simp only [hc, ne_eq, not_false_eq_true, if_true, hpop]
        exact ih S1 (emit out c) hok1 (by omega)

theorem pop_higher_sim (token : Char) (n : Nat) (S : Stacks V) (out : List Char) (h : op_ok S)
    (hn : op_count S ≤ n) :
    Outcome.Rel OpView (pop_higher token n S out) (.ok (pop_higherL token (op_list S) out)) := by
  induction n generalizing S out with
  | zero =>
    have he := op_count_zero S h (by omega)
    simp [pop_higher, op_list_nil S h he, pop_higherL, Outcome.Rel, OpView, h]
  | succ k ih =>
    unfold pop_higher
    by_cases he : is_empty_op S = true
    · simp [he, op_list_nil S h he, pop_higherL, Outcome.Rel, OpView, h]
    · simp only [Bool.not_eq_true] at he
      obtain ⟨c, S1, hpop, hpeek, hl, hok1, hcnt⟩ := pop_op_cons S h he
      simp only [he, Bool.false_eq_true, if_false, hpeek, Outcome.bind, hl, pop_higherL]
      by_cases hp : precedence c ≥ precedence token
      · simp only [hp, if_true]
        by_cases hc : c = '('
        · simp [hc, Outcome.Rel, OpView, h, hl]
        · simp only [hc, if_false, hpop]
          exact ih S1 (emit out c) hok1 (by omega)
      · simp [hp, Outcome.Rel, OpView, h, hl]

theorem pop_rest_sim (n : Nat) (S : Stacks V) (out : List Char) (h : op_ok S)
    (hn : op_count S ≤ n) :
    Outcome.Rel OpView (pop_rest n S out) (pop_restL (op_list S) out) := by
  induction n generalizing S out with
  | zero =>
    have he := op_count_zero S h (by omega)
    simp [pop_rest, op_list_nil S h he, pop_restL, Outcome.Rel, OpView, h]
  | succ k ih =>
    unfold pop_rest
    by_cases he : is_empty_op S = true
    · simp [he, op_list_nil S h he, pop_restL, Outcome.Rel, OpView, h]
    · simp only [Bool.not_eq_true] at he
      obtain ⟨c, S1, hpop, hpeek, hl, hok1, hcnt⟩ := pop_op_cons S h he
      simp only [he, Bool.false_eq_true, if_false, hpeek, Outcome.bind, hl, pop_restL]
      by_cases hc : c = '('
      · simp [hc, Outcome.Rel]
      · simp only [hc, if_false, hpop]
        exact ih S1 (emit out c) hok1 (by omega)

theorem close_paren_sim (S : Stacks V) (out : List Char) (h : op_ok S) :
    Outcome.Rel OpView (close_paren S out) (close_parenL (op_list S) out) := by
  have h1 := pop_to_paren_sim (op_count S) S out h (le_refl _)
  unfold close_paren close_parenL
  generalize pop_to_paren (op_count S) S out = x at h1
  generalize pop_to_parenL (op_list S) out = q at h1
  cases x with
  | ok r =>
    obtain ⟨hok, hl, ho⟩ := h1
    obtain ⟨l1, out1⟩ := q
    simp only at hl ho
    simp only [Outcome.bind]
    by_cases he : is_empty_op r.1 = true
    · have := op_list_nil r.1 hok he
      rw [hl] at this
      subst this
      simp [he, Outcome.Rel]
    · simp only [Bool.not_eq_true] at he
      obtain ⟨c, S1, hpop, _, hl1, hok1, _⟩ := pop_op_cons r.1 hok he
      rw [hl] at hl1
      subst hl1
      simp only [he, Bool.false_eq_true, if_false, hpop, Outcome.bind]
      by_cases hc : c = '('
      · simp [hc, Outcome.Rel, OpView, hok1, ho]
      · simp [hc, Outcome.Rel]
  | exit f => simp [Outcome.Rel] at h1
  | outOfBounds i => simp [Outcome.Rel] at h1

theorem operator_sim (S : Stacks V) (out : List Char) (token : Char) (h : op_ok S) :
    Outcome.Rel OpView (operator S out token) (operatorL (op_list S) out token) := by
  have h1 := pop_higher_sim token (op_count S) S out h (le_refl _)
  unfold operator operatorL
  generalize pop_higher token (op_count S) S out = x at h1
  generalize pop_higherL token (op_list S) out = q at h1
  cases x with
  | ok r =>
    obtain ⟨hok, hl, ho⟩ := h1
    simp only [Outcome.bind]
    have h2 := push_op_sim r.1 token hok
    rw [hl] at h2
    generalize push_op r.1 token = y at h2
    generalize pushL q.1 token = z at h2
    cases y <;> cases z <;> simp_all [Outcome.Rel, OpView]
  | exit f => simp [Outcome.Rel] at h1
  | outOfBounds i => simp [Outcome.Rel] at h1

theorem scan_sim (n : Nat) (s : List Char) (S : Stacks V) (out : List Char) (h : op_ok S) :
    Outcome.Rel OpView (scan n s S out) (scanL n s (op_list S) out) := by
  induction n generalizing s S out with
  | zero => simp [scan, scanL, Outcome.Rel, OpView, h]
  | succ k ih =>
    cases s with
    | nil => simp [scan, scanL, Outcome.Rel, OpView, h]
    | cons token rest =>
      unfold scan scanL
      by_cases h1 : isSkipped token = true
      · simp only [h1, if_true]; exact ih rest S out h
      · simp only [h1, if_false]
        by_cases h2 : isNumChar token = true
        · simp only [h2, if_true]; exact ih _ S _ h
        · simp only [h2, if_false]
          by_cases h3 : token = '('
          · simp only [h3, if_true]
            exact Outcome.Rel.bind (push_op_sim S '(' h)
              (fun a b hab => by rw [← hab.2]; exact ih rest a out hab.1)
          · simp only [h3, if_false]
            by_cases h4 : token = ')'
            · simp only [h4, if_true]
              exact Outcome.Rel.bind (close_paren_sim S out h)
                (fun a b hab => by rw [← hab.2.1, ← hab.2.2]; exact ih rest a.1 a.2 hab.1)
            · simp only [h4, if_false]
              exact Outcome.Rel.bind (operator_sim S out token h)
                (fun a b hab => by rw [← hab.2.1, ← hab.2.2]; exact ih rest a.1 a.2 hab.1)

/-- The array conversion and the list conversion have the same outcome. -/
theorem infix_to_postfix_eq (S : Stacks V) (s : List Char) :
    Outcome.map Prod.fst ( infix_to_postfix S s) = convertL s := by
  have hr : op_ok (reset_stacks S) := by simp [op_ok, reset_stacks, MAX_STACK_SIZE]
  have hl : op_list (reset_stacks S) = [] := by simp [op_list, op_count, reset_stacks, stack_list]
  have h1 := scan_sim s.length s (reset_stacks S) [] hr
  rw [hl] at h1
  unfold infix_to_postfix convertL runL
  generalize scan s.length s (reset_stacks S) [] = x at h1
  generalize scanL s.length s [] [] = y at h1
  cases x with
  | ok r =>
    cases y with
    | ok q =>
      obtain ⟨hok, hl1, ho⟩ := h1
      obtain ⟨S1, o1⟩ := r
      obtain ⟨l1, o2⟩ := q
      simp only at hl1 ho hok
      subst hl1 ho
      have h2 := pop_rest_sim (op_count S1) S1 o1 hok (le_refl _)
      simp only [Outcome.bind, Outcome.map]
      generalize pop_rest (op_count S1) S1 o1 = x2 at h2
      generalize pop_restL (op_list S1) o1 = y2 at h2
      cases x2 <;> cases y2 <;> simp_all [Outcome.Rel, OpView]
    | exit f => simp [Outcome.Rel] at h1
    | outOfBounds i => simp [Outcome.Rel] at h1
  | exit f => cases y <;> simp_all [Outcome.Rel, Outcome.bind, Outcome.map]
  | outOfBounds i => cases y <;> simp_all [Outcome.Rel, Outcome.bind, Outcome.map]

/-! ## The scanning loop without its iteration bound -/

theorem scanL_bound (n m : Nat) (s l out : List Char) (hn : s.length ≤ n) (hm : s.length ≤ m) :
    scanL n s l out = scanL m s l out := by
  induction n generalizing m s l out with
  | zero =>
    have : s = [] := List.length_eq_zero.mp (by omega)
    subst this
    cases m <;> simp [scanL]
  | succ k ih =>
    cases s with
    | nil => cases m <;> simp [scanL]
    | cons token rest =>
      cases m with
      | zero => simp at hm
      | succ j =>
        simp only [List.length_cons, Nat.add_le_add_iff_right] at hn hm
        have hd : (rest.dropWhile isNumChar).length ≤ rest.length :=
          (List.dropWhile_sublist _).length_le
        simp only [scanL]
        rw [ih j rest l out hn hm, ih j (rest.dropWhile isNumChar) l _ (by omega) (by omega)]
        have e1 : (fun l1 => scanL k rest l1 out) = (fun l1 => scanL j rest l1 out) := by
          funext l1; exact ih j rest l1 out hn hm
        have e2 : (fun r : List Char × List Char => scanL k rest r.1 r.2) =
            (fun r => scanL j rest r.1 r.2) := by
          funext r; exact ih j rest r.1 r.2 hn hm
        rw [e1, e2]

theorem runL_nil (l out : List Char) : runL [] l out = .ok (l, out) := by
  simp [runL, scanL]

theorem runL_cons (token : Char) (rest l out : List Char) :
    runL (token :: rest) l out =
      if isSkipped token then runL rest l out
      else if isNumChar token then
        runL (rest.dropWhile isNumChar) l (out ++ (token :: rest.takeWhile isNumChar) ++ [' '])
      else if token = '(' then (pushL l token).bind fun l1 => runL rest l1 out
      else if token = ')' then (close_parenL l out).bind fun r => runL rest r.1 r.2
      else (operatorL l out token).bind fun r => runL rest r.1 r.2 := by
  have hd : (rest.dropWhile isNumChar).length ≤ rest.length :=
    (List.dropWhile_sublist _).length_le
  simp only [runL, List.length_cons, scanL]
  rw [scanL_bound rest.length (rest.dropWhile isNumChar).length (rest.dropWhile isNumChar) l _
    hd (le_refl _)]

theorem runL_spaces (n : Nat) (s l out : List Char) :
    runL (spaces n ++ s) l out = runL s l out := by
  induction n with
  | zero => simp [spaces]
  | succ k ih =>
    have : spaces (k + 1) ++ s = ' ' :: (spaces k ++ s) := by
      simp [spaces, List.replicate_succ]
    rw [this, runL_cons]
    simp only [isSkipped, beq_self_eq_true, Bool.true_or, if_true]
    exact ih

theorem isNumChar_not_skipped (c : Char) (h : isNumChar c = true) : isSkipped c = false := by
  by_contra hs
  simp only [Bool.not_eq_false, isSkipped, Bool.or_eq_true, beq_iff_eq] at hs
  rcases hs with (hs | hs) | hs <;> subst hs <;> revert h <;> decide

theorem takeWhile_run (lit rest : List Char) (h : lit.all isNumChar = true) (hb : boundary rest) :
    (lit ++ rest).takeWhile isNumChar = lit ∧ (lit ++ rest).dropWhile isNumChar = rest := by
  induction lit with
  | nil =>
    cases rest with
    | nil => simp
    | cons c cs =>
      have : isNumChar c = false := hb c (by simp)
      simp [List.takeWhile, List.dropWhile, this]
  | cons c cs ih =>
    simp only [List.all_cons, Bool.and_eq_true] at h
    simp [List.takeWhile, List.dropWhile, h.1, ih h.2]

theorem runL_number (lit rest l out : List Char) (h : isNumber lit = true) (hb : boundary rest) :
    runL (lit ++ rest) l out = runL rest l (out ++ (lit ++ [' '])) := by
  cases lit with
  | nil => simp [isNumber] at h
  | cons c cs =>
    simp only [isNumber, List.isEmpty_cons, Bool.not_false, Bool.true_and, List.all_cons,
      Bool.and_eq_true] at h
    obtain ⟨h1, h2⟩ := takeWhile_run cs rest h.2 hb
    rw [List.cons_append, runL_cons]
    simp only [isNumChar_not_skipped c h.1, h.1, Bool.false_eq_true, if_false, if_true, h1, h2]
    simp

theorem isBinOp_cases (c : Char) (h : isBinOp c = true) :
    c = '+' ∨ c = '-' ∨ c = '*' ∨ c = '/' ∨ c = '^' := by
  simp only [isBinOp, Bool.or_eq_true, beq_iff_eq] at h
  tauto

theorem isBinOp_facts (c : Char) (h : isBinOp c = true) :
    1 ≤ precedence c ∧ precedence c ≤ 3 ∧ c ≠ '(' ∧ c ≠ ')' ∧ isSkipped c = false ∧
      isNumChar c = false := by
  rcases isBinOp_cases c h with h | h | h | h | h <;> subst h <;> decide

theorem level_pos (e : Expr) (h : isParse e = true) : 1 ≤ level e := by
  cases e with
  | num sp lit => simp [level]
  | paren sp e sp2 => simp [level]
  | bin l sp op r =>
    simp only [isParse, Bool.and_eq_true] at h
    exact (isBinOp_facts op h.1.1.1.1).1

theorem pending_facts (e : Expr) (h : isParse e = true) :
    ∀ c ∈ pending e, isBinOp c = true ∧ level e ≤ precedence c := by
  induction e with
  | num sp lit => simp [pending]
  | paren sp e sp2 _ => simp [pending]
  | bin l sp op r _ ihr =>
    simp only [isParse, Bool.and_eq_true, decide_eq_true_eq] at h
    obtain ⟨⟨⟨⟨hop, _⟩, hr⟩, _⟩, hlt⟩ := h
    intro c hc
    simp only [pending, List.mem_append, List.mem_singleton] at hc
    rcases hc with hc | hc
    · have := ihr hr c hc
      exact ⟨this.1, by simp only [level]; omega⟩
    · subst hc; exact ⟨hop, le_refl _⟩

theorem emitAll_append (a b : List Char) : emitAll (a ++ b) = emitAll a ++ emitAll b := by
  induction a with
  | nil => rfl
  | cons c cs ih => simp [emitAll, ih]

theorem postorder_eq (e : Expr) : postorder e = emitted e ++ emitAll (pending e) := by
  induction e with
  | num sp lit => simp [postorder, emitted, pending, emitAll]
  | paren sp e sp2 _ => simp [postorder, emitted, pending, emitAll]
  | bin l sp op r _ ihr =>
    simp [postorder, emitted, pending, emitAll_append, emitAll, ihr]

theorem pop_higherL_pending (token : Char) (ps st out : List Char)
    (h : ∀ c ∈ ps, c ≠ '(' ∧ precedence token ≤ precedence c)
    (hst : lowTop st (precedence token)) :
    pop_higherL token (ps ++ st) out = (st, out ++ emitAll ps) := by
  induction ps generalizing out with
  | nil =>
    cases st with
    | nil => simp [pop_higherL, emitAll]
    | cons t st1 =>
      have : precedence t < precedence token := hst t (by simp)
      simp [pop_higherL, emitAll, Nat.not_le.mpr this]
  | cons c cs ih =>
    have hc := h c (by simp)
    rw [List.cons_append]
    simp only [pop_higherL, ge_iff_le, hc.2, if_true, hc.1, if_false]
    rw [ih _ (fun d hd => h d (by simp [hd]))]
    simp [emit, emitAll]

theorem pop_to_parenL_pending (ps st out : List Char) (h : ∀ c ∈ ps, c ≠ '(') :
    pop_to_parenL (ps ++ '(' :: st) out = ('(' :: st, out ++ emitAll ps) := by
  induction ps generalizing out with
  | nil => simp [pop_to_parenL, emitAll]
  | cons c cs ih =>
    have hc := h c (by simp)
    rw [List.cons_append]
    simp only [pop_to_parenL, ne_eq, hc, not_false_eq_true, if_true]
    rw [ih _ (fun d hd => h d (by simp [hd]))]
    simp [emit, emitAll]

theorem pop_restL_pending (ps out : List Char) (h : ∀ c ∈ ps, c ≠ '(') :
    pop_restL ps out = .ok ([], out ++ emitAll ps) := by
  induction ps generalizing out with
  | nil => simp [pop_restL, emitAll]
  | cons c cs ih =>
    have hc := h c (by simp)
    simp only [pop_restL, hc, if_false]
    rw [ih _ (fun d hd => h d (by simp [hd]))]
    simp [emit, emitAll]

theorem pushL_ok {α : Type} (l : List α) (x : α) (h : l.length < 100) :
    pushL l x = .ok (x :: l) := by
  have : inBounds (l.length : Int) = true := by rw [inBounds_iff]; omega
  simp [pushL, this]

theorem boundary_spaces_cons (n : Nat) (c : Char) (s : List Char) (h : isNumChar c = false) :
    boundary (spaces n ++ c :: s) := by
  intro d hd
  cases n with
  | zero => simp [spaces] at hd; subst hd; exact h
  | succ k =>
    simp [spaces, List.replicate_succ] at hd; subst hd; decide

/-- Scanning the text of a parse tree emits its post-order except for the
operators of the right spine, which stay on the stack. -/
theorem runL_expr (e : Expr) (he : isParse e = true) (rest l out : List Char)
    (hb : boundary rest) (hl : lowTop l (level e)) (hd : l.length + opDepth e ≤ 100) :
    runL (render e ++ rest) l out = runL rest (pending e ++ l) (out ++ emitted e) := by
  induction e generalizing rest l out with
  | num sp lit =>
    simp only [isParse] at he
    simp only [render, List.append_assoc, runL_spaces, pending, emitted, List.nil_append]
    exact runL_number lit rest l out he hb
  | paren sp e sp2 ih =>
    simp only [isParse] at he
    simp only [opDepth] at hd
    simp only [render, List.append_assoc, List.cons_append, runL_spaces]
    rw [runL_cons]
    simp only [show isSkipped '(' = false by decide, show isNumChar '(' = false by decide,
      Bool.false_eq_true, if_false, if_true, pushL_ok l '(' (by omega), Outcome.bind]
    rw [ih he _ _ _ (boundary_spaces_cons sp2 ')' _ (by decide))
      (by intro c hc; simp at hc; subst hc; exact level_pos e he)
      (by simp only [List.length_cons]; omega)]
    rw [runL_spaces, runL_cons]
    simp only [show isSkipped ')' = false by decide, show isNumChar ')' = false by decide,
      show (')' = '(') = False by decide,
      Bool.false_eq_true, if_false, if_true, close_parenL]
    rw [pop_to_parenL_pending _ _ _ (fun c hc => (isBinOp_facts c (pending_facts e he c hc).1).2.2.1)]
    simp [Outcome.bind, pending, emitted, postorder_eq]
  | bin l1 sp op r ihl ihr =>
    simp only [isParse, Bool.and_eq_true, decide_eq_true_eq] at he
    obtain ⟨⟨⟨⟨hop, hl1⟩, hr⟩, hle⟩, hlt⟩ := he
    obtain ⟨hp1, hp3, hnl, hnr, hns, hnn⟩ := isBinOp_facts op hop
    simp only [opDepth] at hd
    simp only [level] at hl
    simp only [render, List.append_assoc, List.cons_append]
    rw [ihl hl1 _ _ _ (boundary_spaces_cons sp op _ hnn)
      (fun c hc => lt_of_lt_of_le (hl c hc) hle) (by omega)]
    rw [runL_spaces, runL_cons]
    simp only [hns, hnn, hnl, hnr, Bool.false_eq_true, if_false, operatorL]
    rw [pop_higherL_pending op (pending l1) l _
      (fun c hc => ⟨(isBinOp_facts c (pending_facts l1 hl1 c hc).1).2.2.1,
        le_trans hle (pending_facts l1 hl1 c hc).2⟩) hl]
    simp only [pushL_ok l op (by omega), Outcome.bind]
    rw [ihr hr _ _ _ hb (by intro c hc; simp at hc; subst hc; exact hlt)
      (by simp only [List.length_cons]; omega)]
    simp [pending, emitted, postorder_eq]

/-- The list conversion of the text of a parse tree is its post-order. -/
theorem convertL_expr (e : Expr) (k : Nat) (he : isParse e = true) (hd : opDepth e ≤ 100) :
    convertL (render e ++ spaces k) = .ok (postorder e) := by
  have hb : boundary (spaces k) := by
    intro c hc
    cases k with
    | zero => simp [spaces] at hc
    | succ j => simp [spaces, List.replicate_succ] at hc; subst hc; decide
  unfold convertL
  rw [runL_expr e he (spaces k) [] [] hb (by intro c hc; simp at hc) (by simpa using hd)]
  have : runL (spaces k) (pending e ++ []) ([] ++ emitted e) =
      .ok (pending e, emitted e) := by
    have := runL_spaces k [] (pending e) (emitted e)
    simp only [List.append_nil] at this
    simp [this, runL_nil]
  rw [this]
  simp only [Outcome.bind]
  rw [pop_restL_pending _ _ (fun c hc => (isBinOp_facts c (pending_facts e he c hc).1).2.2.1)]
  simp [postorder_eq]

/-! ## The array evaluator and the list evaluator agree -/

theorem val_list_length (S : Stacks V) : (val_list S).length = val_count S :=
  stack_list_length _ _

theorem push_val_sim (S : Stacks V) (v : V) (h : val_ok S) :
    Outcome.Rel ValView (push_val S v) (pushL (val_list S) v) := by
  obtain ⟨h1, h2⟩ := h
  simp only [MAX_STACK_SIZE] at h2
  have hc : ((val_count S : Nat) : Int) = S.top_val + 1 := by
    simp only [val_count]; omega
  unfold push_val pushL
  simp only [val_list_length, hc]
  by_cases hb : inBounds (S.top_val + 1) = true
  · simp only [hb, if_true, Outcome.Rel, ValView]
    rw [inBounds_iff] at hb
    refine ⟨⟨by simp; omega, by simp [MAX_STACK_SIZE]; omega⟩, ?_⟩
    have hn : val_count S + 1 = (S.top_val + 1 + 1).toNat := by simp only [val_count]; omega
    simp only [val_list, val_count]
    rw [← val_count, ← hn, stack_list, hc, Function.update_same]
    rw [stack_list_update _ _ _ _ (by omega)]
  · simp only [hb, Outcome.Rel]
    simp

theorem pop_val_nil (S : Stacks V) (h : val_ok S) (hl : val_list S = []) :
    pop_val S = .outOfBounds (-1) := by
  have h0 : val_count S = 0 := by rw [← val_list_length, hl]; rfl
  have ht : S.top_val = -1 := by
    obtain ⟨h1, _⟩ := h
    simp only [val_count] at h0; omega
  simp [pop_val, ht, inBounds]

theorem pop_val_cons (S : Stacks V) (h : val_ok S) (b : V) (rest : List V)
    (hl : val_list S = b :: rest) :
    ∃ S1, pop_val S = .ok (b, S1) ∧ ValView S1 rest ∧ S.top_val = rest.length := by
  obtain ⟨h1, h2⟩ := h
  simp only [MAX_STACK_SIZE] at h2
  have hcnt : val_count S = rest.length + 1 := by rw [← val_list_length, hl]; rfl
  have h0 : S.top_val = rest.length := by simp only [val_count] at hcnt; omega
  have hb : inBounds S.top_val = true := by rw [inBounds_iff]; omega
  have hn : val_count S = (S.top_val - 1 + 1).toNat + 1 := by simp only [val_count]; omega
  have hk : (((S.top_val - 1 + 1).toNat : Nat) : Int) = S.top_val := by omega
  have hl2 : val_list S = S.value_stack S.top_val ::
      stack_list S.value_stack (S.top_val - 1 + 1).toNat := by
    simp only [val_list, val_count]
    rw [← val_count, hn, stack_list, hk]
  rw [hl2] at hl
  simp only [List.cons.injEq] at hl
  refine ⟨{ S with top_val := S.top_val - 1 }, ?_, ⟨⟨by simp; omega, by simp [MAX_STACK_SIZE]; omega⟩, ?_⟩, h0⟩
  · simp [pop_val, hb, hl.1]
  · simp only [val_list, val_count]; exact hl.2

theorem eval_token_sim (A : Arith V) (S : Stacks V) (token : List Char) (h : val_ok S) :
    Outcome.Rel ValView (eval_token A S token) (eval_tokenL A (val_list S) token) := by
  unfold eval_token eval_tokenL
  by_cases ho : is_operand token = true
  · simp only [ho, if_true]; exact push_val_sim S _ h
  · simp only [ho, if_false]
    rcases hl : val_list S with _ | ⟨b, _ | ⟨a, rest⟩⟩
    · simp [pop_val_nil S h hl, Outcome.bind, Outcome.Rel]
    · obtain ⟨S1, hp, hv, _⟩ := pop_val_cons S h b [] hl
      simp [hp, Outcome.bind, pop_val_nil S1 hv.1 hv.2, Outcome.Rel]
    · obtain ⟨S1, hp, hv, _⟩ := pop_val_cons S h b (a :: rest) hl
      obtain ⟨S2, hp2, hv2, _⟩ := pop_val_cons S1 hv.1 a rest hv.2
      simp only [hp, Outcome.bind, hp2]
      cases apply_op A a b (token_at token 0) with
      | ok v =>
        simp only
        have := push_val_sim S2 v hv2.1
        rw [hv2.2] at this
        exact this
      | exit f => simp [Outcome.Rel]
      | outOfBounds i => simp [Outcome.Rel]

theorem eval_loop_sim (A : Arith V) (tokens : List (List Char)) (S : Stacks V) (h : val_ok S) :
    Outcome.Rel ValView (eval_loop A tokens S) (eval_loopL A tokens (val_list S)) := by
  induction tokens generalizing S with
  | nil => simp [eval_loop, eval_loopL, Outcome.Rel, ValView, h]
  | cons token rest ih =>
    unfold eval_loop eval_loopL
    exact Outcome.Rel.bind (eval_token_sim A S token h)
      (fun a b hab => by rw [← hab.2]; exact ih a hab.1)

/-- The array evaluator and the list evaluator have the same outcome. -/
theorem evaluate_postfix_eq (A : Arith V) (S : Stacks V) (pf : List Char) :
    Outcome.map Prod.fst ( evaluate_postfix A S pf) = evaluateL A (strtok pf) := by
  have hr : val_ok (reset_stacks S) := by simp [val_ok, reset_stacks, MAX_STACK_SIZE]
  have hl : val_list (reset_stacks S) = [] := by
    simp [val_list, val_count, reset_stacks, stack_list]
  have h1 := eval_loop_sim A (strtok pf) (reset_stacks S) hr
  rw [hl] at h1
  unfold evaluate_postfix evaluateL
  generalize eval_loop A (strtok pf) (reset_stacks S) = x at h1
  generalize eval_loopL A (strtok pf) [] = y at h1
  cases x with
  | ok S1 =>
    cases y with
    | ok vs =>
      obtain ⟨hok, hvs⟩ := h1
      simp only [Outcome.bind, Outcome.map]
      rcases vs with _ | ⟨v, _ | ⟨w, rest⟩⟩
      · have h0 : val_count S1 = 0 := by rw [← val_list_length, hvs]; rfl
        have ht : S1.top_val ≠ 0 := by simp only [val_count] at h0; omega
        simp [ht]
      · obtain ⟨S2, hp, _, ht⟩ := pop_val_cons S1 hok v [] hvs
        simp only [List.length_nil, Nat.cast_zero] at ht
        simp [ht, hp]
      · obtain ⟨S2, hp, _, ht⟩ := pop_val_cons S1 hok v (w :: rest) hvs
        have ht2 : S1.top_val ≠ 0 := by
          simp only [List.length_cons] at ht; push_cast at ht; omega
        simp [ht2]
    | exit f => simp [Outcome.Rel] at h1
    | outOfBounds i => simp [Outcome.Rel] at h1
  | exit f => cases y <;> simp_all [Outcome.Rel, Outcome.bind, Outcome.map]
  | outOfBounds i => cases y <;> simp_all [Outcome.Rel, Outcome.bind, Outcome.map]

/-! ## Tokens of a postfix text -/

theorem strtok_from_token (tok rest cur : List Char) (hs : ∀ c ∈ tok, c ≠ ' ')
    (hne : cur ++ tok ≠ []) :
    strtok_from (tok ++ ' ' :: rest) cur = (cur ++ tok) :: strtok_from rest [] := by
  induction tok generalizing cur with
  | nil =>
    simp only [List.append_nil] at hne
    simp [strtok_from, hne]
  | cons c cs ih =>
    have hc : c ≠ ' ' := hs c (by simp)
    rw [List.cons_append]
    simp only [strtok_from, hc, if_false]
    rw [ih (cur ++ [c]) (fun d hd => hs d (by simp [hd])) (by simp)]
    simp

theorem strtok_from_last (tok cur : List Char) (hs : ∀ c ∈ tok, c ≠ ' ')
    (hne : cur ++ tok ≠ []) :
    strtok_from tok cur = [cur ++ tok] := by
  induction tok generalizing cur with
  | nil =>
    simp only [List.append_nil] at hne
    simp [strtok_from, hne]
  | cons c cs ih =>
    have hc : c ≠ ' ' := hs c (by simp)
    simp only [strtok_from, hc, if_false]
    rw [ih (cur ++ [c]) (fun d hd => hs d (by simp [hd])) (by simp)]
    simp

theorem strtok_token (tok rest : List Char) (hs : ∀ c ∈ tok, c ≠ ' ') (hne : tok ≠ []) :
    strtok (tok ++ ' ' :: rest) = tok :: strtok rest := by
  simpa [strtok] using strtok_from_token tok rest [] hs (by simpa using hne)

theorem isNumChar_ne_space (c : Char) (h : isNumChar c = true) : c ≠ ' ' := by
  intro hc; subst hc; revert h; decide

theorem isNumber_facts (lit : List Char) (h : isNumber lit = true) :
    lit ≠ [] ∧ ∀ c ∈ lit, c ≠ ' ' := by
  simp only [isNumber, Bool.and_eq_true, Bool.not_eq_true', List.all_eq_true] at h
  refine ⟨?_, fun c hc => isNumChar_ne_space c (h.2 c hc)⟩
  intro hl; subst hl; simp at h

theorem strtok_postorder (e : Expr) (he : isParse e = true) (rest : List Char) :
    strtok (postorder e ++ rest) = postTokens e ++ strtok rest := by
  induction e generalizing rest with
  | num sp lit =>
    simp only [isParse] at he
    obtain ⟨h1, h2⟩ := isNumber_facts lit he
    simp only [postorder, postTokens, List.append_assoc, List.singleton_append]
    exact strtok_token lit rest h2 h1
  | paren sp e sp2 ih =>
    simp only [isParse] at he
    simpa [postorder, postTokens] using ih he rest
  | bin l sp op r ihl ihr =>
    simp only [isParse, Bool.and_eq_true, decide_eq_true_eq] at he
    obtain ⟨⟨⟨⟨hop, hl⟩, hr⟩, _⟩, _⟩ := he
    have hsp : op ≠ ' ' := by
      rcases isBinOp_cases op hop with h | h | h | h | h <;> subst h <;> decide
    simp only [postorder, postTokens, List.append_assoc]
    rw [ihl hl, ihr hr]
    have := strtok_token [op] rest (by simpa using hsp) (by simp)
    simp only [List.singleton_append] at this
    simp [this]

/-! ## Evaluating the post-order of a parse tree -/

theorem Outcome.bind_assoc {α β γ : Type} (x : Outcome α) (k : α → Outcome β)
    (k2 : β → Outcome γ) : (x.bind k).bind k2 = x.bind (fun a => (k a).bind k2) := by
  cases x <;> rfl

theorem Outcome.bind_ok {α : Type} (x : Outcome α) : x.bind Outcome.ok = x := by
  cases x <;> rfl

theorem eval_loopL_append (A : Arith V) (xs ys : List (List Char)) (vs : List V) :
    eval_loopL A (xs ++ ys) vs = (eval_loopL A xs vs).bind (eval_loopL A ys) := by
  induction xs generalizing vs with
  | nil => simp [eval_loopL, Outcome.bind]
  | cons x xs ih =>
    simp only [List.cons_append, eval_loopL, Outcome.bind_assoc]
    congr 1
    funext vs1
    exact ih vs1

theorem isDecimal_operand (lit : List Char) (h : isDecimal lit = true) :
    is_operand lit = true := by
  simp only [isDecimal, Bool.and_eq_true] at h
  simp [is_operand, h.1.1]

theorem isBinOp_operator (op : Char) (h : isBinOp op = true) :
    is_operand [op] = false ∧ token_at [op] 0 = op := by
  rcases isBinOp_cases op h with h | h | h | h | h <;> subst h <;> decide

theorem eval_loopL_expr (A : Arith V) (e : Expr) (he : isParse e = true)
    (hd : decimalLits e = true) (rest : List (List Char)) (vs : List V)
    (hv : vs.length + valDepth e ≤ 100) :
    eval_loopL A (postTokens e ++ rest) vs =
      (evalExpr A e).bind fun v => eval_loopL A rest (v :: vs) := by
  induction e generalizing rest vs with
  | num sp lit =>
    simp only [decimalLits] at hd
    simp only [valDepth] at hv
    simp [postTokens, eval_loopL, eval_tokenL, isDecimal_operand lit hd, evalExpr,
      pushL_ok vs (A.atof lit) (by omega), Outcome.bind]
  | paren sp e sp2 ih =>
    simp only [isParse] at he
    simp only [decimalLits] at hd
    simp only [valDepth] at hv
    simpa [postTokens, evalExpr] using ih he hd rest vs hv
  | bin l sp op r ihl ihr =>
    simp only [isParse, Bool.and_eq_true, decide_eq_true_eq] at he
    obtain ⟨⟨⟨⟨hop, hl⟩, hr⟩, _⟩, _⟩ := he
    simp only [decimalLits, Bool.and_eq_true] at hd
    simp only [valDepth] at hv
    obtain ⟨ho1, ho2⟩ := isBinOp_operator op hop
    simp only [postTokens, List.append_assoc, evalExpr, Outcome.bind_assoc]
    rw [ihl hl hd.1 _ vs (by omega)]
    congr 1
    funext a
    rw [ihr hr hd.2 _ (a :: vs) (by simp only [List.length_cons]; omega)]
    congr 1
    funext b
    simp only [List.singleton_append, eval_loopL, eval_tokenL, ho1, Bool.false_eq_true,
      if_false, ho2, Outcome.bind_assoc]
    congr 1
    funext v
    simp [pushL_ok vs v (by omega), Outcome.bind]

theorem evaluateL_expr (A : Arith V) (e : Expr) (he : isParse e = true)
    (hd : decimalLits e = true) (hv : valDepth e ≤ 100) :
    evaluateL A (postTokens e) = evalExpr A e := by
  have := eval_loopL_expr A e he hd [] [] (by simpa using hv)
  simp only [List.append_nil] at this
  unfold evaluateL
  rw [this, Outcome.bind_assoc]
  simp only [eval_loopL, Outcome.bind]
  exact Outcome.bind_ok _

/-! ## Depth of parenthesis-free expressions -/

theorem parenFree_depth (e : Expr) (he : isParse e = true) (hp : parenFree e = true) :
    opDepth e + level e ≤ 4 ∧ valDepth e + level e ≤ 5 := by
  induction e with
  | num sp lit => simp [opDepth, valDepth, level]
  | paren sp e sp2 _ => simp [parenFree] at hp
  | bin l sp op r ihl ihr =>
    simp only [isParse, Bool.and_eq_true, decide_eq_true_eq] at he
    obtain ⟨⟨⟨⟨_, hl⟩, hr⟩, hle⟩, hlt⟩ := he
    simp only [parenFree, Bool.and_eq_true] at hp
    have h1 := ihl hl hp.1
    have h2 := ihr hr hp.2
    simp only [opDepth, valDepth, level]
    omega

/-! ## Conversion and evaluation of well-formed expressions -/

theorem map_fst_ok {α β : Type} (x : Outcome (α × β)) (a : α)
    (h : Outcome.map Prod.fst x = .ok a) : ∃ b, x = .ok (a, b) := by
  cases x with
  | ok r =>
    obtain ⟨r1, r2⟩ := r
    simp only [Outcome.map, Outcome.bind, Outcome.ok.injEq] at h
    exact ⟨r2, by rw [h]⟩
  | exit f => simp [Outcome.map, Outcome.bind] at h
  | outOfBounds i => simp [Outcome.map, Outcome.bind] at h

theorem strtok_nil : strtok [] = [] := rfl

theorem convert_ok_then_evaluate (A : Arith V) (S : Stacks V) (s out : List Char)
    (h : Outcome.map Prod.fst ( infix_to_postfix S s) = .ok out) :
    Outcome.map Prod.fst ( convert_then_evaluate A S s) = evaluateL A (strtok out) := by
  obtain ⟨S1, h1⟩ := map_fst_ok _ _ h
  simp only [convert_then_evaluate, h1, Outcome.bind]
  exact evaluate_postfix_eq A S1 out

/-- For a parse tree needing at most 100 stack entries the conversion of its
text returns the post-order text. -/
theorem convert_tree (S : Stacks V) (e : Expr) (k : Nat)
    (he : isParse e = true) (hd : opDepth e ≤ 100) :
    Outcome.map Prod.fst ( infix_to_postfix S (render e ++ spaces k)) = .ok (postorder e) := by
  rw [infix_to_postfix_eq]
  exact convertL_expr e k he hd

/-- For a parenthesis-free parse tree with decimal literals, converting and then
evaluating its text gives the outcome of evaluating the tree directly. -/
theorem convert_then_evaluate_tree (A : Arith V) (S : Stacks V) (e : Expr) (k : Nat)
    (he : isParse e = true) (hp : parenFree e = true) (hd : decimalLits e = true) :
    Outcome.map Prod.fst ( convert_then_evaluate A S (render e ++ spaces k)) = evalExpr A e := by
  obtain ⟨h1, h2⟩ := parenFree_depth e he hp
  have hc : Outcome.map Prod.fst ( infix_to_postfix S (render e ++ spaces k)) =
      .ok (postorder e) :=
    convert_tree S e k he (by omega)
  rw [convert_ok_then_evaluate A S _ _ hc]
  have := strtok_postorder e he []
  rw [List.append_nil, strtok_nil, List.append_nil] at this
  rw [this]
  exact evaluateL_expr A e he hd (by omega)

theorem isDecimal_isNumber (lit : List Char) (h : isDecimal lit = true) :
    isNumber lit = true := by
  simp only [isDecimal, Bool.and_eq_true] at h
  cases lit with
  | nil => simp [token_at] at h
  | cons c cs => simpa [isNumber] using h.1.2

theorem isDecimal_facts (lit : List Char) (h : isDecimal lit = true) :
    lit ≠ [] ∧ (∀ c ∈ lit, c ≠ ' ') ∧ is_operand lit = true :=
  ⟨(isNumber_facts lit (isDecimal_isNumber lit h)).1,
    (isNumber_facts lit (isDecimal_isNumber lit h)).2, isDecimal_operand lit h⟩

theorem strtok_binary (a b : List Char) (op : Char) (ha : isDecimal a = true)
    (hb : isDecimal b = true) (hop : isBinOp op = true) :
    strtok (a ++ ' ' :: (b ++ [' ', op])) = [a, b, [op]] := by
  obtain ⟨a1, a2, _⟩ := isDecimal_facts a ha
  obtain ⟨b1, b2, _⟩ := isDecimal_facts b hb
  have hsp : op ≠ ' ' := by
    rcases isBinOp_cases op hop with h | h | h | h | h <;> subst h <;> decide
  rw [strtok_token a _ a2 a1, strtok_token b _ b2 b1]
  have := strtok_from_last [op] [] (by simpa using hsp) (by simp)
  simp only [List.nil_append] at this
  simp [strtok, this]

theorem apply_op_cases (A : Arith V) (a b : V) (op : Char) :
    apply_op A a b op = .exit .DivisionByZero ∨ ∃ v, apply_op A a b op = .ok v := by
  unfold apply_op
  split_ifs <;> simp

/-! ## Final depth of the value stack -/

theorem peakDepth_ge (tokens : List (List Char)) (d : Nat) : d ≤ peakDepth tokens d := by
  cases tokens with
  | nil => simp [peakDepth]
  | cons t rest =>
    simp only [peakDepth]
    split_ifs <;> exact le_max_left _ _

theorem eval_loopL_depth (A : Arith V) (tokens : List (List Char)) (vs : List V)
    (hf : operatorsFed tokens vs.length = true) (hp : peakDepth tokens vs.length ≤ 100) :
    eval_loopL A tokens vs = .exit .DivisionByZero ∨
      ∃ vs1, eval_loopL A tokens vs = .ok vs1 ∧
        vs1.length + operatorCount tokens = vs.length + operandCount tokens := by
  induction tokens generalizing vs with
  | nil => right; exact ⟨vs, rfl, by simp [operatorCount, operandCount]⟩
  | cons t rest ih =>
    by_cases ht : is_operand t = true
    · simp only [operatorsFed, ht, if_true] at hf
      simp only [peakDepth, ht, if_true] at hp
      have hp1 : peakDepth rest (vs.length + 1) ≤ 100 := le_trans (le_max_right _ _) hp
      have hlt : vs.length < 100 := by
        have := peakDepth_ge rest (vs.length + 1); omega
      simp only [eval_loopL, eval_tokenL, ht, if_true, pushL_ok vs _ hlt, Outcome.bind]
      rcases ih (A.atof t :: vs) hf hp1 with h | ⟨vs1, h, hlen⟩
      · left; exact h
      · right
        refine ⟨vs1, h, ?_⟩
        simp only [List.length_cons] at hlen
        simp only [operatorCount, operandCount, List.filter_cons, ht, if_true, Bool.not_true,
          Bool.false_eq_true, if_false, List.length_cons] at hlen ⊢
        omega
    · simp only [Bool.not_eq_true] at ht
      simp only [operatorsFed, ht, Bool.false_eq_true, if_false, Bool.and_eq_true,
        decide_eq_true_eq] at hf
      simp only [peakDepth, ht, Bool.false_eq_true, if_false] at hp
      obtain ⟨h2, hf⟩ := hf
      rcases vs with _ | ⟨b, _ | ⟨a, vs0⟩⟩
      · simp at h2
      · simp at h2
      · simp only [List.length_cons] at hf hp h2
        have hp1 : peakDepth rest (vs0.length + 1) ≤ 100 := by
          have := le_max_right (vs0.length + 1 + 1) (peakDepth rest (vs0.length + 1 + 1 - 1))
          simp only [Nat.add_sub_cancel] at this
          exact le_trans this hp
        have hlt : vs0.length < 100 := by
          have := peakDepth_ge rest (vs0.length + 1); omega
        simp only [eval_loopL, eval_tokenL, ht, Bool.false_eq_true, if_false]
        rcases apply_op_cases A a b (token_at t 0) with h | ⟨v, h⟩
        · left; simp [h, Outcome.bind]
        · simp only [h, Outcome.bind, pushL_ok vs0 v hlt]
          rcases ih (v :: vs0) (by simpa using hf) (by simpa using hp1) with h3 | ⟨vs1, h3, hlen⟩
          · left; exact h3
          · right
            refine ⟨vs1, h3, ?_⟩
            simp only [List.length_cons] at hlen
            simp only [operatorCount, operandCount, List.filter_cons, ht, Bool.not_false,
              if_true, Bool.false_eq_true, if_false, List.length_cons] at hlen ⊢
            omega

/-! ## Parenthesis errors -/

theorem parenBalance_none_iff (k : Nat) (s : List Char) :
    parenBalance k s = none ↔ ∃ p, p <+: s ∧ k + p.count '(' < p.count ')' := by
  induction s generalizing k with
  | nil => simp [parenBalance]
  | cons c t ih =>
    simp only [parenBalance, List.prefix_cons_iff]
    by_cases h1 : c = '('
    · subst h1
      simp only [if_true, ih]
      constructor
      · rintro ⟨p, hp, hlt⟩
        exact ⟨'(' :: p, Or.inr ⟨p, rfl, hp⟩, by simp; omega⟩
      · rintro ⟨p, hp | ⟨q, rfl, hq⟩, hlt⟩
        · subst hp; simp at hlt
        · exact ⟨q, hq, by simp at hlt; omega⟩
    · simp only [h1, if_false]
      by_cases h2 : c = ')'
      · subst h2
        simp only [if_true]
        by_cases hk : k = 0
        · subst hk
          simp only [if_true, true_iff]
          exact ⟨[')'], Or.inr ⟨[], rfl, List.nil_prefix⟩, by simp⟩
        · simp only [hk, if_false, ih]
          constructor
          · rintro ⟨p, hp, hlt⟩
            exact ⟨')' :: p, Or.inr ⟨p, rfl, hp⟩, by simp; omega⟩
          · rintro ⟨p, hp | ⟨q, rfl, hq⟩, hlt⟩
            · subst hp; simp at hlt
            · exact ⟨q, hq, by simp at hlt; omega⟩
      · simp only [h2, if_false, ih]
        constructor
        · rintro ⟨p, hp, hlt⟩
          exact ⟨c :: p, Or.inr ⟨p, rfl, hp⟩, by
            simp [List.count_cons, Ne.symm h1, Ne.symm h2]; omega⟩
        · rintro ⟨p, hp | ⟨q, rfl, hq⟩, hlt⟩
          · subst hp; simp at hlt
          · exact ⟨q, hq, by
              simp [List.count_cons, Ne.symm h1, Ne.symm h2] at hlt; omega⟩

theorem parenBalance_some (k m : Nat) (s : List Char) (h : parenBalance k s = some m) :
    m + s.count ')' = k + s.count '(' := by
  induction s generalizing k with
  | nil => simp [parenBalance] at h; simp [h]
  | cons c t ih =>
    simp only [parenBalance] at h
    by_cases h1 : c = '('
    · subst h1
      simp only [if_true] at h
      have := ih (k + 1) h
      simp; omega
    · simp only [h1, if_false] at h
      by_cases h2 : c = ')'
      · subst h2
        simp only [if_true] at h
        by_cases hk : k = 0
        · simp [hk] at h
        · simp only [hk, if_false] at h
          have := ih (k - 1) h
          simp; omega
      · simp only [h2, if_false] at h
        have := ih k h
        simp [List.count_cons, Ne.symm h1, Ne.symm h2]; omega

theorem parenBalance_dropWhile (k : Nat) (s : List Char) :
    parenBalance k (s.dropWhile isNumChar) = parenBalance k s := by
  induction s with
  | nil => rfl
  | cons c t ih =>
    by_cases hc : isNumChar c = true
    · have h1 : c ≠ '(' := by intro h; subst h; revert hc; decide
      have h2 : c ≠ ')' := by intro h; subst h; revert hc; decide
      simp [List.dropWhile, hc, parenBalance, h1, h2, ih]
    · simp [List.dropWhile, hc]

theorem pop_to_parenL_count (l out : List Char) :
    ((pop_to_parenL l out).1 = [] ∧ l.count '(' = 0) ∨
      ∃ l1, (pop_to_parenL l out).1 = '(' :: l1 ∧ l.count '(' = l1.count '(' + 1 ∧
        l1.length < l.length := by
  induction l generalizing out with
  | nil => left; simp [pop_to_parenL]
  | cons c t ih =>
    simp only [pop_to_parenL]
    by_cases hc : c = '('
    · subst hc
      right; exact ⟨t, by simp, by simp, by simp⟩
    · simp only [ne_eq, hc, not_false_eq_true, if_true]
      rcases ih (emit out c) with ⟨h1, h2⟩ | ⟨l1, h1, h2, h3⟩
      · left; exact ⟨h1, by simp [List.count_cons, Ne.symm hc, h2]⟩
      · right; exact ⟨l1, h1, by simp [List.count_cons, Ne.symm hc, h2], by simp; omega⟩

theorem pop_higherL_count (token : Char) (l out : List Char) :
    (pop_higherL token l out).1.count '(' = l.count '(' ∧
      (pop_higherL token l out).1.length ≤ l.length := by
  induction l generalizing out with
  | nil => simp [pop_higherL]
  | cons c t ih =>
    simp only [pop_higherL]
    split_ifs with h1 h2
    · simp
    · have := ih (emit out c)
      exact ⟨by simp [List.count_cons, Ne.symm h2, this.1], by simp; omega⟩
    · simp

theorem pushL_cases {α : Type} (l : List α) (x : α) (h : l.length ≤ 100) :
    (l.length < 100 ∧ pushL l x = .ok (x :: l)) ∨
      (l.length = 100 ∧ pushL l x = .outOfBounds 100) := by
  by_cases hl : l.length < 100
  · left; exact ⟨hl, pushL_ok l x hl⟩
  · right
    have : l.length = 100 := by omega
    have hb : inBounds (l.length : Int) = false := by
      rw [← Bool.not_eq_true, inBounds_iff]; omega
    refine ⟨this, ?_⟩
    simp only [pushL, hb]
    simp [this]

/-- What the scanning loop does with the parentheses: it stores out of bounds
at index 100, or exits at the first `)` with no `(` open, or ends with as many
`(` on the stack as are left open. -/
theorem runL_parens (n : Nat) (s l out : List Char) (hn : s.length ≤ n) (hl : l.length ≤ 100) :
    runL s l out = .outOfBounds 100 ∨
      (parenBalance (l.count '(') s = none ∧ runL s l out = .exit .MismatchedParenthesis) ∨
      ∃ l1 out1, runL s l out = .ok (l1, out1) ∧
        parenBalance (l.count '(') s = some (l1.count '(') ∧ l1.length ≤ 100 := by
  induction n generalizing s l out with
  | zero =>
    have : s = [] := List.length_eq_zero.mp (by omega)
    subst this
    right; right; exact ⟨l, out, runL_nil l out, by simp [parenBalance], hl⟩
  | succ k ih =>
    cases s with
    | nil => right; right; exact ⟨l, out, runL_nil l out, by simp [parenBalance], hl⟩
    | cons c rest =>
      simp only [List.length_cons, Nat.add_le_add_iff_right] at hn
      rw [runL_cons]
      by_cases h1 : isSkipped c = true
      · have c1 : c ≠ '(' := by intro h; subst h; revert h1; decide
        have c2 : c ≠ ')' := by intro h; subst h; revert h1; decide
        simp only [h1, if_true, parenBalance, c1, c2, if_false]
        exact ih rest l out hn hl
      · simp only [h1, if_false]
        by_cases h2 : isNumChar c = true
        · have c1 : c ≠ '(' := by intro h; subst h; revert h2; decide
          have c2 : c ≠ ')' := by intro h; subst h; revert h2; decide
          simp only [h2, if_true, parenBalance, c1, c2, if_false]
          rw [← parenBalance_dropWhile]
          exact ih _ l _ (le_trans (List.dropWhile_sublist _).length_le hn) hl
        · simp only [h2, if_false]
          by_cases h3 : c = '('
          · subst h3
            simp only [if_true, parenBalance]
            rcases pushL_cases l '(' hl with ⟨hlt, hp⟩ | ⟨_, hp⟩
            · simp only [hp, Outcome.bind]
              have := ih rest ('(' :: l) out hn (by simp; omega)
              simpa using this
            · left; simp [hp, Outcome.bind]
          · simp only [h3, if_false]
            by_cases h4 : c = ')'
            · subst h4
              simp only [if_true, parenBalance, close_parenL]
              rcases pop_to_parenL_count l out with ⟨e1, e2⟩ | ⟨l1, e1, e2, e3⟩
              · right; left
                have : pop_to_parenL l out = ([], (pop_to_parenL l out).2) := by
                  rw [← e1]
                rw [this]
                simp [e2, Outcome.bind]
              · have : pop_to_parenL l out = ('(' :: l1, (pop_to_parenL l out).2) := by
                  rw [← e1]
                rw [this]
                simp only [ne_eq, not_true_eq_false, if_false, Outcome.bind, e2,
                  Nat.add_one_ne_zero, Nat.add_sub_cancel]
                exact ih rest l1 _ hn (by omega)
            · simp only [h3, h4, if_false, parenBalance, operatorL]
              obtain ⟨e1, e2⟩ := pop_higherL_count c l out
              rcases pushL_cases (pop_higherL c l out).1 c (by omega) with ⟨hlt, hp⟩ | ⟨_, hp⟩
              · simp only [hp, Outcome.bind]
                have := ih rest (c :: (pop_higherL c l out).1) (pop_higherL c l out).2 hn
                  (by simp; omega)
                simpa [List.count_cons, Ne.symm h3, e1] using this
              · left; simp [hp, Outcome.bind]

theorem pop_restL_cases (l out : List Char) :
    (0 < l.count '(' ∧ pop_restL l out = .exit .UnclosedParenthesis) ∨
      (l.count '(' = 0 ∧ ∃ out1, pop_restL l out = .ok ([], out1)) := by
  induction l generalizing out with
  | nil => right; exact ⟨rfl, out, rfl⟩
  | cons c t ih =>
    simp only [pop_restL]
    by_cases hc : c = '('
    · subst hc; left; simp
    · simp only [hc, if_false]
      rcases ih (emit out c) with ⟨h1, h2⟩ | ⟨h1, h2⟩
      · left; exact ⟨by simp [List.count_cons, Ne.symm hc, h1], h2⟩
      · right; exact ⟨by simp [List.count_cons, Ne.symm hc, h1], h2⟩

/-- The outcome of the list conversion in terms of the parentheses. -/
theorem convertL_parens (s : List Char) :
    convertL s = .outOfBounds 100 ∨
      (parenBalance 0 s = none ∧ convertL s = .exit .MismatchedParenthesis) ∨
      (∃ m, parenBalance 0 s = some m ∧ 0 < m ∧ convertL s = .exit .UnclosedParenthesis) ∨
      (parenBalance 0 s = some 0 ∧ ∃ out, convertL s = .ok out) := by
  unfold convertL
  rcases runL_parens s.length s [] [] (le_refl _) (by simp) with h | ⟨h1, h2⟩ | ⟨l1, out1, h1, h2, _⟩
  · left; simp [h, Outcome.bind]
  · right; left; exact ⟨by simpa using h1, by simp [h2, Outcome.bind]⟩
  · right; right
    simp only [List.count_nil] at h2
    simp only [h1, Outcome.bind]
    rcases pop_restL_cases l1 out1 with ⟨e1, e2⟩ | ⟨e1, out2, e2⟩
    · left; exact ⟨_, h2, e1, by simp [e2]⟩
    · right; exact ⟨by rw [h2, e1], out2, by simp [e2]⟩



/-! ## Capacity of the stacks -/

theorem replicate_append_cons {α : Type} (n : Nat) (x : α) (l : List α) :
    List.replicate n x ++ x :: l = x :: (List.replicate n x ++ l) := by
  induction n with
  | zero => rfl
  | succ k ih => simp [List.replicate_succ, ih]

theorem runL_open_parens (n : Nat) (rest l out : List Char) (h : l.length + n ≤ 100) :
    runL (List.replicate n '(' ++ rest) l out = runL rest (List.replicate n '(' ++ l) out := by
  induction n generalizing l with
  | zero => simp
  | succ k ih =>
    rw [List.replicate_succ, List.cons_append, runL_cons]
    simp only [show isSkipped '(' = false by decide, show isNumChar '(' = false by decide,
      Bool.false_eq_true, if_false, if_true, pushL_ok l '(' (by omega), Outcome.bind]
    rw [ih ('(' :: l) (by simp; omega), replicate_append_cons]
    rfl

theorem convertL_overflow (rest : List Char) :
    convertL (List.replicate 101 '(' ++ rest) = .outOfBounds 100 := by
  have e : List.replicate 101 '(' ++ rest = List.replicate 100 '(' ++ ('(' :: rest) := by
    rw [show (101 : Nat) = 100 + 1 from rfl, List.replicate_succ']
    simp
  unfold convertL
  rw [e, runL_open_parens 100 _ [] [] (by simp), runL_cons]
  have hb : inBounds ((List.replicate 100 '(' ++ ([] : List Char)).length : Int) = false := by
    simp [inBounds, MAX_STACK_SIZE]
  simp only [show isSkipped '(' = false by decide, show isNumChar '(' = false by decide,
    Bool.false_eq_true, if_false, if_true, pushL, hb, Outcome.bind]
  simp

theorem strtok_ones (n : Nat) (rest : List Char) :
    strtok (ones n ++ rest) = List.replicate n ['1'] ++ strtok rest := by
  induction n with
  | zero => simp [ones]
  | succ k ih =>
    have := strtok_token ['1'] (ones k ++ rest) (by decide) (by simp)
    simp only [List.singleton_append] at this
    simp [ones, this, ih, List.replicate_succ]

theorem eval_loopL_ones (A : Arith V) (n : Nat) (tokens : List (List Char)) (vs : List V)
    (h : vs.length + n ≤ 100) :
    eval_loopL A (List.replicate n ['1'] ++ tokens) vs =
      eval_loopL A tokens (List.replicate n (A.atof ['1']) ++ vs) := by
  induction n generalizing vs with
  | zero => simp
  | succ k ih =>
    rw [List.replicate_succ, List.cons_append]
    simp only [eval_loopL, eval_tokenL, show is_operand ['1'] = true by decide, if_true,
      pushL_ok vs _ (show vs.length < 100 by omega), Outcome.bind]
    rw [ih (A.atof ['1'] :: vs) (by simp; omega), replicate_append_cons]
    rfl

theorem evaluateL_overflow (A : Arith V) (rest : List Char) :
    evaluateL A (strtok (ones 101 ++ rest)) = .outOfBounds 100 := by
  rw [strtok_ones, show (101 : Nat) = 100 + 1 from rfl, List.replicate_succ',
    List.append_assoc, List.singleton_append]
  unfold evaluateL
  rw [eval_loopL_ones A 100 _ [] (by simp)]
  have hb : inBounds ((List.replicate 100 (A.atof ['1']) ++ ([] : List V)).length : Int)
      = false := by
    simp [inBounds, MAX_STACK_SIZE]
  simp only [eval_loopL, eval_tokenL, show is_operand ['1'] = true by decide, if_true,
    pushL, hb, Outcome.bind]
  simp

theorem scanL_open_parens (n : Nat) (rest l out : List Char) (h : l.length + n ≤ 100) :
    scanL n (List.replicate n '(' ++ rest) l out = .ok (List.replicate n '(' ++ l, out) := by
  induction n generalizing l with
  | zero => simp [scanL]
  | succ k ih =>
    rw [List.replicate_succ, List.cons_append]
    simp only [scanL, show isSkipped '(' = false by decide, show isNumChar '(' = false by decide,
      Bool.false_eq_true, if_false, if_true, pushL_ok l '(' (by omega), Outcome.bind]
    rw [ih ('(' :: l) (by simp; omega), replicate_append_cons]
    rfl

/-- After `n` iterations on a text that starts with `n` times `(` the operator
stack holds them and `top_op` is `n - 1`. -/
theorem scan_open_parens (n : Nat) (hn : n ≤ 100) (S : Stacks V) (rest : List Char) :
    ∃ S1 : Stacks V,
      scan n (List.replicate n '(' ++ rest) (reset_stacks S) [] = .ok (S1, []) ∧
        op_list S1 = List.replicate n '(' ∧ S1.top_op + 1 = n := by
  have hr : op_ok (reset_stacks S) := by simp [op_ok, reset_stacks, MAX_STACK_SIZE]
  have hl : op_list (reset_stacks S) = [] := by simp [op_list, op_count, reset_stacks, stack_list]
  have h1 := scan_sim n (List.replicate n '(' ++ rest) (reset_stacks S) [] hr
  rw [hl, scanL_open_parens n rest [] [] (by simpa using hn)] at h1
  cases hx : scan n (List.replicate n '(' ++ rest) (reset_stacks S) [] with
  | ok r =>
    rw [hx] at h1
    obtain ⟨S1, o1⟩ := r
    obtain ⟨hok, e1, e2⟩ := h1
    simp only [List.append_nil] at e1 e2
    subst e2
    have hc : op_count S1 = n := by rw [← op_list_length, e1, List.length_replicate]
    have ht : S1.top_op + 1 = n := by
      have h2 : -1 ≤ S1.top_op := hok.1
      simp only [op_count] at hc; omega
    exact ⟨S1, rfl, e1, ht⟩
  | exit f => rw [hx] at h1; exact absurd h1 (by simp [Outcome.Rel])
  | outOfBounds i => rw [hx] at h1; exact absurd h1 (by simp [Outcome.Rel])

/-- A push on a full stack stores at index 100. -/
theorem push_op_full (S1 : Stacks V) (c : Char) (h : S1.top_op + 1 = 100) :
    push_op S1 c = .outOfBounds 100 := by
  simp [push_op, h, inBounds, MAX_STACK_SIZE]

/-- After `n` number tokens the value stack holds them and `top_val` is
`n - 1`. -/
theorem eval_loop_ones (A : Arith V) (n : Nat) (hn : n ≤ 100) (S : Stacks V) :
    ∃ S1 : Stacks V,
      eval_loop A (List.replicate n ['1']) (reset_stacks S) = .ok S1 ∧
        val_list S1 = List.replicate n (A.atof ['1']) ∧ S1.top_val + 1 = n := by
  have hr : val_ok (reset_stacks S) := by simp [val_ok, reset_stacks, MAX_STACK_SIZE]
  have hl : val_list (reset_stacks S) = [] := by
    simp [val_list, val_count, reset_stacks, stack_list]
  have h1 := eval_loop_sim A (List.replicate n ['1']) (reset_stacks S) hr
  have h2 := eval_loopL_ones A n [] [] (by simpa using hn)
  simp only [List.append_nil, eval_loopL] at h2
  rw [hl, h2] at h1
  cases hx : eval_loop A (List.replicate n ['1']) (reset_stacks S) with
  | ok S1 =>
    rw [hx] at h1
    obtain ⟨hok, e1⟩ := h1
    have hc : val_count S1 = n := by rw [← val_list_length, e1, List.length_replicate]
    have ht : S1.top_val + 1 = n := by
      obtain ⟨h3, _⟩ := hok
      simp only [val_count] at hc; omega
    exact ⟨S1, rfl, e1, ht⟩
  | exit f => rw [hx] at h1; exact absurd h1 (by simp [Outcome.Rel])
  | outOfBounds i => rw [hx] at h1; exact absurd h1 (by simp [Outcome.Rel])

/-- A push on a full stack stores at index 100. -/
theorem push_val_full (S1 : Stacks V) (v : V) (h : S1.top_val + 1 = 100) :
    push_val S1 v = .outOfBounds 100 := by
  simp [push_val, h, inBounds, MAX_STACK_SIZE]

/-! ## The parse tree of a token sequence -/

theorem render_attach (t : Expr) (sp : Nat) (op : Char) (n : Expr) :
    render (attach t sp op n) = render t ++ (spaces sp ++ op :: render n) := by
  induction t with
  | num s lit => simp [attach, render]
  | paren s e s2 _ => simp [attach, render]
  | bin l s o r _ ihr =>
    simp only [attach]
    split_ifs
    · simp [render, ihr]
    · simp [render]

theorem level_attach (t : Expr) (sp : Nat) (op : Char) (n : Expr) :
    level (attach t sp op n) = precedence op ∨
      (level (attach t sp op n) = level t ∧ level t < precedence op) := by
  cases t with
  | num s lit => left; simp [attach, level]
  | paren s e s2 => left; simp [attach, level]
  | bin l s o r =>
    simp only [attach]
    split_ifs with h
    · right; exact ⟨rfl, h⟩
    · left; simp [level]

theorem isParse_attach (t : Expr) (sp : Nat) (op : Char) (n : Expr) (ht : isParse t = true)
    (hop : isBinOp op = true) (hn : isParse n = true) (hl : level n = 4) :
    isParse (attach t sp op n) = true := by
  have hp3 := (isBinOp_facts op hop).2.1
  have hlt4 : precedence op < level n := by omega
  induction t with
  | num s lit =>
    have e : precedence op ≤ level (.num s lit) := by simp only [level]; omega
    simp only [attach, isParse, hop, hn, Bool.and_self, Bool.true_and, Bool.and_eq_true,
      decide_eq_true_eq]
    simp only [isParse] at ht
    exact ⟨⟨by simpa using ht, e⟩, hlt4⟩
  | paren s e s2 _ =>
    have e1 : precedence op ≤ level (.paren s e s2) := by simp only [level]; omega
    simp only [attach, isParse, hop, hn, Bool.and_self, Bool.true_and, Bool.and_eq_true,
      decide_eq_true_eq]
    simp only [isParse] at ht
    exact ⟨⟨by simpa using ht, e1⟩, hlt4⟩
  | bin l s o r _ ihr =>
    have ht2 := ht
    simp only [isParse, Bool.and_eq_true, decide_eq_true_eq] at ht
    obtain ⟨⟨⟨⟨ho, hl1⟩, hr⟩, hle⟩, hlt⟩ := ht
    simp only [attach]
    split_ifs with h
    · have := ihr hr
      simp only [isParse, ho, hl1, this, Bool.and_self, Bool.true_and, Bool.and_eq_true,
        decide_eq_true_eq]
      refine ⟨hle, ?_⟩
      rcases level_attach r sp op n with e | ⟨e, _⟩ <;> omega
    · have e1 : precedence op ≤ level (.bin l s o r) := by simp only [level]; omega
      simp only [isParse, hop, hn, Bool.and_self, Bool.true_and, Bool.and_eq_true,
        decide_eq_true_eq]
      exact ⟨⟨by simp [ho, hl1, hr, hle, hlt], e1⟩, hlt4⟩

theorem parenFree_attach (t : Expr) (sp : Nat) (op : Char) (n : Expr)
    (ht : parenFree t = true) (hn : parenFree n = true) :
    parenFree (attach t sp op n) = true := by
  induction t with
  | num s lit => simp [attach, parenFree, hn]
  | paren s e s2 _ => simp [parenFree] at ht
  | bin l s o r _ ihr =>
    simp only [parenFree, Bool.and_eq_true] at ht
    simp only [attach]
    split_ifs
    · simp [parenFree, ht.1, ihr ht.2]
    · simp [parenFree, ht.1, ht.2, hn]

theorem decimalLits_attach (t : Expr) (sp : Nat) (op : Char) (n : Expr)
    (ht : decimalLits t = true) (hn : decimalLits n = true) :
    decimalLits (attach t sp op n) = true := by
  induction t with
  | num s lit => simp only [decimalLits] at ht; simp [attach, decimalLits, hn, ht]
  | paren s e s2 _ => simp only [decimalLits] at ht; simp [attach, decimalLits, hn, ht]
  | bin l s o r _ ihr =>
    simp only [decimalLits, Bool.and_eq_true] at ht
    simp only [attach]
    split_ifs
    · simp [decimalLits, ht.1, ihr ht.2]
    · simp [decimalLits, ht.1, ht.2, hn]

/-- The tree built from a token sequence is its parse tree and has its text. -/
theorem parseFlat_facts (first : Expr) (pairs : List OpNum)
    (h1 : isParse first = true) (h2 : parenFree first = true) (h3 : decimalLits first = true)
    (hp : ∀ p ∈ pairs, isBinOp p.op = true ∧ isDecimal p.lit = true) :
    isParse (parseFlat first pairs) = true ∧ parenFree (parseFlat first pairs) = true ∧
      decimalLits (parseFlat first pairs) = true ∧
      render (parseFlat first pairs) = render first ++ renderPairs pairs := by
  induction pairs generalizing first with
  | nil => simp [parseFlat, renderPairs, h1, h2, h3]
  | cons p rest ih =>
    obtain ⟨hop, hlit⟩ := hp p (by simp)
    have hn : isParse (.num p.sp2 p.lit) = true := by
      simpa [isParse] using isDecimal_isNumber p.lit hlit
    have := ih (attach first p.sp1 p.op (.num p.sp2 p.lit))
      (isParse_attach first _ _ _ h1 hop hn rfl)
      (parenFree_attach first _ _ _ h2 rfl)
      (decimalLits_attach first _ _ _ h3 (by simpa [decimalLits] using hlit))
      (fun q hq => hp q (by simp [hq]))
    simp only [parseFlat]
    refine ⟨this.1, this.2.1, this.2.2.1, ?_⟩
    rw [this.2.2.2, render_attach]
    simp [renderPairs, render]

/-! ## The claims of the specification, C1 to C10 -/

/-- C1: for every parenthesis-free expression written as a decimal number
followed by operator-number pairs, with any spaces between the tokens,
converting and then evaluating gives the outcome of evaluating the parse tree
directly with `apply_op`, the same number or the division-by-zero exit; the
tree is the parse by precedence `^` over `* /` over `+ -` with equal
precedence grouping to the left. -/
theorem convert_then_evaluate_direct (A : Arith V) (S : Stacks V) (sp : Nat) (lit : List Char)
    (pairs : List OpNum) (k : Nat) (h0 : isDecimal lit = true)
    (hp : ∀ p ∈ pairs, isBinOp p.op = true ∧ isDecimal p.lit = true) :
    Outcome.map Prod.fst
        ( convert_then_evaluate A S (spaces sp ++ lit ++ renderPairs pairs ++ spaces k)) =
      evalExpr A (parseFlat (.num sp lit) pairs) ∧
    isParse (parseFlat (.num sp lit) pairs) = true ∧
    render (parseFlat (.num sp lit) pairs) = spaces sp ++ lit ++ renderPairs pairs := by
  obtain ⟨e1, e2, e3, e4⟩ := parseFlat_facts (.num sp lit) pairs
    (by simpa [isParse] using isDecimal_isNumber lit h0) rfl
    (by simpa [decimalLits] using h0) hp
  simp only [render] at e4
  refine ⟨?_, e1, e4⟩
  rw [← e4]
  exact convert_then_evaluate_tree A S _ k e1 e2 e3

/-- C1 on `3 + 4 * 2`: the result is 11. -/
theorem convert_then_evaluate_direct_witness :
    spaces 0 ++ ['3'] ++ renderPairs [⟨1, '+', 1, ['4']⟩, ⟨1, '*', 1, ['2']⟩] ++ spaces 0 =
        "3 + 4 * 2".toList ∧
      Outcome.map Prod.fst ( convert_then_evaluate qArith initStacks "3 + 4 * 2".toList) =
        .ok 11 :=
  ⟨by decide,
    (convert_then_evaluate_direct qArith initStacks 0 ['3']
      [⟨1, '+', 1, ['4']⟩, ⟨1, '*', 1, ['2']⟩] 0 (by decide) (by decide)).1.trans
      (by decide!)⟩

/-- C2: for a well-formed expression with balanced parentheses whose pending
operators and open parentheses never exceed the capacity, the conversion
succeeds and its output is the post-order traversal of the parse tree, each
token followed by one space. -/
theorem infix_to_postfix_postorder (S : Stacks V) (e : Expr) (k : Nat)
    (he : isParse e = true) (hd : (opDepth e : Int) ≤ MAX_STACK_SIZE) :
    Outcome.map Prod.fst ( infix_to_postfix S (render e ++ spaces k)) = .ok (postorder e) := by
  exact convert_tree S e k he (by simp only [MAX_STACK_SIZE] at hd; omega)

/-- C2 on `(3 + 4) * 2`: the tokens are `3 4 + 2 *`. -/
theorem infix_to_postfix_postorder_witness :
    render (.bin (.paren 0 (.bin (.num 0 ['3']) 1 '+' (.num 1 ['4'])) 0) 1 '*' (.num 1 ['2']))
        ++ spaces 0 = "(3 + 4) * 2".toList ∧
      Outcome.map Prod.fst ( infix_to_postfix initStacks "(3 + 4) * 2".toList) =
        .ok "3 4 + 2 * ".toList :=
  ⟨by decide, infix_to_postfix_postorder initStacks
    (.bin (.paren 0 (.bin (.num 0 ['3']) 1 '+' (.num 1 ['4'])) 0) 1 '*' (.num 1 ['2'])) 0
    (by decide) (by decide)⟩

/-- C3: for an input that stays within the operator-stack capacity, the
conversion exits with the mismatched-parenthesis diagnostic exactly when some
prefix holds more `)` than `(`; otherwise it exits with the unclosed-parenthesis
diagnostic exactly when the whole input holds more `(` than `)`; otherwise it
succeeds. -/
theorem paren_errors (S : Stacks V) (s : List Char)
    (hcap : ∀ i, Outcome.map Prod.fst ( infix_to_postfix S s) ≠ .outOfBounds i) :
    (Outcome.map Prod.fst ( infix_to_postfix S s) = .exit .MismatchedParenthesis ↔
        ∃ p, p <+: s ∧ p.count '(' < p.count ')') ∧
      ((¬ ∃ p, p <+: s ∧ p.count '(' < p.count ')') →
        (Outcome.map Prod.fst ( infix_to_postfix S s) = .exit .UnclosedParenthesis ↔
            s.count ')' < s.count '(') ∧
          (¬ s.count ')' < s.count '(' →
            ∃ out, Outcome.map Prod.fst ( infix_to_postfix S s) = .ok out)) := by
  rw [infix_to_postfix_eq] at hcap ⊢
  have hiff := parenBalance_none_iff 0 s
  simp only [Nat.zero_add] at hiff
  rcases convertL_parens s with h | ⟨h1, h2⟩ | ⟨m, h1, hm, h2⟩ | ⟨h1, out, h2⟩
  · exact absurd h (hcap 100)
  · have hp := hiff.mp h1
    exact ⟨⟨fun _ => hp, fun _ => h2⟩, fun hn => absurd hp hn⟩
  · have hnp : ¬ ∃ p, p <+: s ∧ p.count '(' < p.count ')' := by
      rw [← hiff, h1]; simp
    have hc := parenBalance_some 0 m s h1
    refine ⟨⟨fun h => ?_, fun h => absurd h hnp⟩, fun _ => ⟨⟨fun _ => by omega, fun _ => h2⟩,
      fun h => by omega⟩⟩
    rw [h2] at h; cases h
  · have hnp : ¬ ∃ p, p <+: s ∧ p.count '(' < p.count ')' := by
      rw [← hiff, h1]; simp
    have hc := parenBalance_some 0 0 s h1
    refine ⟨⟨fun h => ?_, fun h => absurd h hnp⟩, fun _ => ⟨⟨fun h => ?_, fun h => by omega⟩,
      fun _ => ⟨out, h2⟩⟩⟩
    · rw [h2] at h; cases h
    · rw [h2] at h; cases h

/-- C3 on `1 + 2)` and `(1 + 2`. -/
theorem paren_errors_witness :
    Outcome.map Prod.fst ( infix_to_postfix initStacks "1 + 2)".toList) =
        .exit .MismatchedParenthesis ∧
      Outcome.map Prod.fst ( infix_to_postfix initStacks "(1 + 2".toList) =
        .exit .UnclosedParenthesis :=
  ⟨(paren_errors initStacks "1 + 2)".toList (by
      intro i h
      have e : Outcome.map Prod.fst ( infix_to_postfix initStacks "1 + 2)".toList) =
          .exit .MismatchedParenthesis := by decide
      rw [e] at h; cases h)).1.2 ⟨"1 + 2)".toList, List.prefix_refl _, by decide⟩,
    ((paren_errors initStacks "(1 + 2".toList (by
      intro i h
      have e : Outcome.map Prod.fst ( infix_to_postfix initStacks "(1 + 2".toList) =
          .exit .UnclosedParenthesis := by decide
      rw [e] at h; cases h)).2 (by
        rintro ⟨p, hp, hlt⟩
        have e := (parenBalance_none_iff 0 "(1 + 2".toList).mpr ⟨p, hp, by omega⟩
        revert e; decide)).1.2 (by decide)⟩

/-- C4: `apply_op(a, b, '/')` exits with the division-by-zero diagnostic when
`b == 0.0` and returns `a / b` otherwise; so when the evaluation of a postfix
text reaches a token starting with `/` while the value on top of the stack,
the right operand, is zero, no number is returned, and with a left operand
below it the call exits with the division-by-zero diagnostic. -/
theorem division_by_zero_exits (A : Arith V) :
    (∀ a b : V, A.isZero b = true → apply_op A a b '/' = .exit .DivisionByZero) ∧
    (∀ a b : V, A.isZero b = false → apply_op A a b '/' = .ok (A.div a b)) ∧
    (∀ (S S1 : Stacks V) (pf : List Char) (pre post : List (List Char)) (token : List Char),
      strtok pf = pre ++ token :: post → token_at token 0 = '/' →
      eval_loop A pre (reset_stacks S) = .ok S1 → 0 ≤ S1.top_val →
      A.isZero (S1.value_stack S1.top_val) = true →
      (∀ v, Outcome.map Prod.fst ( evaluate_postfix A S pf) ≠ .ok v) ∧
      (1 ≤ S1.top_val →
        Outcome.map Prod.fst ( evaluate_postfix A S pf) = .exit .DivisionByZero)) := by
  refine ⟨fun a b h => by simp [apply_op, h], fun a b h => by simp [apply_op, h], ?_⟩
  intro S S1 pf pre post token hs ht hpre htop hz
  have hr : val_ok (reset_stacks S) := by simp [val_ok, reset_stacks, MAX_STACK_SIZE]
  have hl : val_list (reset_stacks S) = [] := by
    simp [val_list, val_count, reset_stacks, stack_list]
  have h1 := eval_loop_sim A pre (reset_stacks S) hr
  rw [hpre, hl] at h1
  have hno : is_operand token = false := by
    simp only [is_operand, ht]
    simp [show '/'.isDigit = false by decide]
  cases hx : eval_loopL A pre [] with
  | ok vs =>
    rw [hx] at h1
    obtain ⟨hok, hvs⟩ := h1
    have hcnt : val_count S1 = vs.length := by rw [← val_list_length, hvs]
    have hres : evaluateL A (strtok pf) = .exit .DivisionByZero ∨
        (evaluateL A (strtok pf) = .outOfBounds (-1) ∧ S1.top_val < 1) := by
      rcases vs with _ | ⟨b, _ | ⟨a, rest⟩⟩
      · simp only [val_count, List.length_nil] at hcnt; omega
      · right
        refine ⟨?_, by simp only [val_count, List.length_singleton] at hcnt; omega⟩
        simp [evaluateL, hs, eval_loopL_append, hx, Outcome.bind, eval_loopL, eval_tokenL, hno]
      · left
        obtain ⟨S2, hp, _, _⟩ := pop_val_cons S1 hok b (a :: rest) hvs
        have hb : b = S1.value_stack S1.top_val := by
          have := hok.2
          simp only [MAX_STACK_SIZE] at this
          have hin : inBounds S1.top_val = true := by rw [inBounds_iff]; omega
          simp only [pop_val, hin, if_true, Outcome.ok.injEq, Prod.mk.injEq] at hp
          exact hp.1.symm
        have hdz : apply_op A a b '/' = .exit .DivisionByZero := by
          simp [apply_op, hb, hz]
        simp [evaluateL, hs, eval_loopL_append, hx, Outcome.bind, eval_loopL, eval_tokenL, hno,
          ht, hdz]
    rw [evaluate_postfix_eq]
    refine ⟨fun v => ?_, fun h2 => ?_⟩
    · rcases hres with h | ⟨h, _⟩ <;> simp [h]
    · rcases hres with h | ⟨_, h⟩
      · exact h
      · omega
  | exit f => rw [hx] at h1; simp [Outcome.Rel] at h1
  | outOfBounds i => rw [hx] at h1; simp [Outcome.Rel] at h1

/-- C4 on `5 0 /`: the call exits with the division-by-zero diagnostic. -/
theorem division_by_zero_exits_witness :
    Outcome.map Prod.fst ( evaluate_postfix qArith initStacks "5 0 /".toList) =
      .exit .DivisionByZero :=
  ((division_by_zero_exits qArith).2.2 initStacks _ "5 0 /".toList [['5'], ['0']] [] ['/']
    (by decide) (by decide) rfl (by decide) (by decide!)).2 (by decide)

/-- C5: an operator token reached with fewer than two values is not reported:
on `+ 1 2`, and on the postfix `1 + 2 3 +` produced for `1 + + 2 3`, the
evaluator pops from the empty value stack, a read at index `-1` outside the
array, and does not exit with the malformed-postfix diagnostic. -/
theorem operator_underflow_unchecked (A : Arith V) (S : Stacks V) :
    Outcome.map Prod.fst ( evaluate_postfix A S "+ 1 2".toList) = .outOfBounds (-1) ∧
    Outcome.map Prod.fst ( infix_to_postfix S "1 + + 2 3".toList) = .ok "1 + 2 3 + ".toList ∧
    Outcome.map Prod.fst ( convert_then_evaluate A S "1 + + 2 3".toList) = .outOfBounds (-1) := by
  have hc : Outcome.map Prod.fst ( infix_to_postfix S "1 + + 2 3".toList) =
      .ok "1 + 2 3 + ".toList := by
    rw [infix_to_postfix_eq]; decide
  have hs1 : strtok "+ 1 2".toList = [['+'], ['1'], ['2']] := by decide
  have hs2 : strtok "1 + 2 3 + ".toList = [['1'], ['+'], ['2'], ['3'], ['+']] := by decide
  have ht : is_operand ['+'] = false := by decide
  have h1 : is_operand ['1'] = true := by decide
  refine ⟨?_, hc, ?_⟩
  · rw [evaluate_postfix_eq, hs1]
    simp [evaluateL, eval_loopL, eval_tokenL, ht, Outcome.bind]
  · rw [convert_ok_then_evaluate A S _ _ hc, hs2]
    simp [evaluateL, eval_loopL, eval_tokenL, ht, h1, Outcome.bind, pushL, inBounds,
      MAX_STACK_SIZE]

/-- C6 (amended): for a postfix text in which every operator token finds at
least two values, at most `MAX_STACK_SIZE` values are ever held and no division
by zero occurs, the evaluator returns a number exactly when one value remains
(operand tokens = operator tokens + 1), and exits with the malformed-postfix
diagnostic for every other final depth. -/
theorem final_depth_check (A : Arith V) (S : Stacks V) (pf : List Char)
    (hf : operatorsFed (strtok pf) 0 = true)
    (hp : (peakDepth (strtok pf) 0 : Int) ≤ MAX_STACK_SIZE)
    (hz : Outcome.map Prod.fst ( evaluate_postfix A S pf) ≠ .exit .DivisionByZero) :
    ((∃ v, Outcome.map Prod.fst ( evaluate_postfix A S pf) = .ok v) ↔
        operandCount (strtok pf) = operatorCount (strtok pf) + 1) ∧
      (operandCount (strtok pf) ≠ operatorCount (strtok pf) + 1 →
        Outcome.map Prod.fst ( evaluate_postfix A S pf) = .exit .MalformedPostfix) := by
  rw [evaluate_postfix_eq] at hz ⊢
  have hp1 : peakDepth (strtok pf) ([] : List V).length ≤ 100 := by
    simp only [MAX_STACK_SIZE] at hp
    simp only [List.length_nil]; omega
  rcases eval_loopL_depth A (strtok pf) [] hf hp1 with h | ⟨vs1, h, hlen⟩
  · exact absurd (by simp [evaluateL, h, Outcome.bind]) hz
  · simp only [List.length_nil, Nat.zero_add] at hlen
    simp only [evaluateL, h, Outcome.bind]
    rcases vs1 with _ | ⟨v, _ | ⟨w, rest⟩⟩
    · simp only [List.length_nil, Nat.zero_add] at hlen
      refine ⟨⟨fun ⟨v, hv⟩ => by simp at hv, fun hc => by omega⟩, fun _ => rfl⟩
    · simp only [List.length_singleton] at hlen
      refine ⟨⟨fun _ => by omega, fun _ => ⟨v, rfl⟩⟩, fun hc => by omega⟩
    · simp only [List.length_cons] at hlen
      refine ⟨⟨fun ⟨v, hv⟩ => by simp at hv, fun hc => by omega⟩, fun _ => rfl⟩

/-- C6 (amended) on `1 2`, the empty text and `1 2 +`. -/
theorem final_depth_check_witness :
    Outcome.map Prod.fst ( evaluate_postfix qArith initStacks "1 2".toList) =
        .exit .MalformedPostfix ∧
      Outcome.map Prod.fst ( evaluate_postfix qArith initStacks "".toList) =
        .exit .MalformedPostfix ∧
      ∃ v, Outcome.map Prod.fst ( evaluate_postfix qArith initStacks "1 2 +".toList) = .ok v :=
  ⟨(final_depth_check qArith initStacks "1 2".toList (by decide) (by decide)
      (by decide!)).2 (by decide),
    (final_depth_check qArith initStacks "".toList (by decide) (by decide)
      (by decide!)).2 (by decide),
    (final_depth_check qArith initStacks "1 2 +".toList (by decide) (by decide)
      (by decide!)).1.2 (by decide)⟩

/-- C6 as stated fails on `1 0 /`: every operator finds two values and there
is one operand more than operators, yet no number is returned, because the
division by zero exits. -/
theorem final_depth_check_counterexample :
    operatorsFed (strtok "1 0 /".toList) 0 = true ∧
      operandCount (strtok "1 0 /".toList) = operatorCount (strtok "1 0 /".toList) + 1 ∧
      Outcome.map Prod.fst ( evaluate_postfix qArith initStacks "1 0 /".toList) =
        .exit .DivisionByZero ∧
      ¬ ∃ v, Outcome.map Prod.fst ( evaluate_postfix qArith initStacks "1 0 /".toList) = .ok v := by
  have h : Outcome.map Prod.fst ( evaluate_postfix qArith initStacks "1 0 /".toList) =
      .exit .DivisionByZero := by decide!
  refine ⟨by decide, by decide, h, ?_⟩
  rw [h]
  simp

/-- C7: on `.5 + 1.5` the converter emits the literal `.5` as a number token,
and the evaluator, which takes a token for a number only when it starts with a
digit, applies it as an operator to an empty value stack: the read is at index
`-1`, outside the array, and no sum is returned. -/
theorem leading_point_literal (A : Arith V) (S S1 : Stacks V) :
    isNumber ".5".toList = true ∧ ".5".toList.count '.' = 1 ∧
    Outcome.map Prod.fst ( infix_to_postfix S ".5 + 1.5".toList) = .ok ".5 1.5 + ".toList ∧
    Outcome.map Prod.fst ( evaluate_postfix A S1 ".5 1.5 + ".toList) = .outOfBounds (-1) ∧
    Outcome.map Prod.fst ( convert_then_evaluate A S ".5 + 1.5".toList) = .outOfBounds (-1) := by
  have hc : Outcome.map Prod.fst ( infix_to_postfix S ".5 + 1.5".toList) =
      .ok ".5 1.5 + ".toList := by
    rw [infix_to_postfix_eq]; decide
  have hs : strtok ".5 1.5 + ".toList = [".5".toList, "1.5".toList, "+".toList] := by decide
  have ht : is_operand ['.', '5'] = false := by decide
  have hv : evaluateL A (strtok ".5 1.5 + ".toList) = .outOfBounds (-1) := by
    rw [hs]
    simp [evaluateL, eval_loopL, eval_tokenL, ht, Outcome.bind]
  refine ⟨by decide, by decide, hc, ?_, ?_⟩
  · rw [evaluate_postfix_eq, hv]
  · rw [convert_ok_then_evaluate A S _ _ hc, hv]

/-- C9: on the postfix text `a b op` the evaluator returns
`apply_op(a, b, op)`: the value pushed first is the left operand, the value
pushed later the right one; with a non-zero right operand for `/` this is a
number. -/
theorem evaluate_binary (A : Arith V) (S : Stacks V) (a b : List Char) (op : Char)
    (ha : isDecimal a = true) (hb : isDecimal b = true) (hop : isBinOp op = true) :
    Outcome.map Prod.fst ( evaluate_postfix A S (a ++ ' ' :: (b ++ [' ', op]))) =
        apply_op A (A.atof a) (A.atof b) op ∧
      ((op = '/' → A.isZero (A.atof b) = false) →
        ∃ v, apply_op A (A.atof a) (A.atof b) op = .ok v) := by
  obtain ⟨ho1, ho2⟩ := isBinOp_operator op hop
  refine ⟨?_, ?_⟩
  · rw [evaluate_postfix_eq, strtok_binary a b op ha hb hop]
    simp only [evaluateL, eval_loopL, eval_tokenL, isDecimal_operand a ha,
      isDecimal_operand b hb, ho1, ho2, if_true, Bool.false_eq_true, if_false]
    rw [pushL_ok [] _ (by simp)]
    simp only [Outcome.bind]
    rw [pushL_ok [A.atof a] _ (by simp)]
    simp only []
    rcases apply_op_cases A (A.atof a) (A.atof b) op with h | ⟨v, h⟩
    · simp [h]
    · simp [h, pushL_ok ([] : List V) v (by simp)]
  · intro hz
    unfold apply_op
    split_ifs with h1 h2 h3 h4 h5 h6 <;> simp_all

/-- C9 on `5 3 -` and `8 2 /`: the values are 2 and 4. -/
theorem evaluate_binary_witness :
    Outcome.map Prod.fst ( evaluate_postfix qArith initStacks "5 3 -".toList) = .ok 2 ∧
      Outcome.map Prod.fst ( evaluate_postfix qArith initStacks "8 2 /".toList) = .ok 4 :=
  ⟨(evaluate_binary qArith initStacks ['5'] ['3'] '-' (by decide) (by decide)
      (by decide)).1.trans (by decide!),
    (evaluate_binary qArith initStacks ['8'] ['2'] '/' (by decide) (by decide)
      (by decide)).1.trans (by decide!)⟩

/-- C10: no push checks the capacity. After 100 times `(` the operator stack
is full (`top_op` is 99, so `top_op + 1` is `MAX_STACK_SIZE`) and the next
`push_op` stores at index 100, outside the array; after 100 number tokens the
value stack is full and the next `push_val` stores at index 100. So an infix
text that starts with 101 times `(` and a postfix text that starts with 101
number tokens reach a store at index 100 (where the run of the embedding
stops); neither call exits with a stack-overflow diagnostic before that
store. -/
theorem capacity_unchecked (A : Arith V) (S : Stacks V) :
    (∀ (rest : List Char) (c : Char), ∃ S1 : Stacks V,
      scan 100 (List.replicate 100 '(' ++ rest) (reset_stacks S) [] = .ok (S1, []) ∧
        op_list S1 = List.replicate 100 '(' ∧ S1.top_op + 1 = MAX_STACK_SIZE ∧
        push_op S1 c = .outOfBounds 100) ∧
    (∀ rest, Outcome.map Prod.fst
        ( infix_to_postfix S (List.replicate 101 '(' ++ rest)) = .outOfBounds 100) ∧
    (∀ v : V, ∃ S1 : Stacks V,
      eval_loop A (List.replicate 100 ['1']) (reset_stacks S) = .ok S1 ∧
        val_list S1 = List.replicate 100 (A.atof ['1']) ∧ S1.top_val + 1 = MAX_STACK_SIZE ∧
        push_val S1 v = .outOfBounds 100) ∧
    (∀ rest, Outcome.map Prod.fst
        ( evaluate_postfix A S (ones 101 ++ rest)) = .outOfBounds 100) := by
  refine ⟨fun rest c => ?_, fun rest => ?_, fun v => ?_, fun rest => ?_⟩
  · obtain ⟨S1, h1, h2, h3⟩ := scan_open_parens 100 (le_refl _) S rest
    exact ⟨S1, h1, h2, h3, push_op_full S1 c h3⟩
  · rw [infix_to_postfix_eq]; exact convertL_overflow rest
  · obtain ⟨S1, h1, h2, h3⟩ := eval_loop_ones A 100 (le_refl _) S
    exact ⟨S1, h1, h2, h3, push_val_full S1 v h3⟩
  · rw [evaluate_postfix_eq]; exact evaluateL_overflow A rest

/-! ## The tokens that the scan emits -/

theorem emitAll_eq_join (ps : List Char) : emitAll ps = joinTokens (ps.map fun c => [c]) := by
  induction ps with
  | nil => rfl
  | cons c cs ih => simp [emitAll, joinTokens, ih]

theorem joinTokens_append (a b : List (List Char)) :
    joinTokens (a ++ b) = joinTokens a ++ joinTokens b := by
  induction a with
  | nil => rfl
  | cons t ts ih => simp [joinTokens, ih]

theorem pop_to_parenL_split (l out : List Char) :
    ∃ ps, l = ps ++ (pop_to_parenL l out).1 ∧ (∀ c ∈ ps, c ≠ '(') ∧
      (pop_to_parenL l out).2 = out ++ emitAll ps := by
  induction l generalizing out with
  | nil => exact ⟨[], by simp [pop_to_parenL, emitAll]⟩
  | cons c t ih =>
    simp only [pop_to_parenL]
    by_cases hc : c = '('
    · subst hc
      exact ⟨[], by simp [emitAll]⟩
    · simp only [ne_eq, hc, not_false_eq_true, if_true]
      obtain ⟨ps, h1, h2, h3⟩ := ih (emit out c)
      refine ⟨c :: ps, by rw [List.cons_append, ← h1], ?_, ?_⟩
      · intro d hd
        rcases List.mem_cons.mp hd with h | h
        · subst h; exact hc
        · exact h2 d h
      · rw [h3]; simp [emit, emitAll]

theorem pop_higherL_split (token : Char) (l out : List Char) :
    ∃ ps, l = ps ++ (pop_higherL token l out).1 ∧ (∀ c ∈ ps, c ≠ '(') ∧
      (pop_higherL token l out).2 = out ++ emitAll ps ∧
      (∀ c ∈ (pop_higherL token l out).1.head?, c ≠ '(' → precedence c < precedence token) := by
  induction l generalizing out with
  | nil => exact ⟨[], by simp [pop_higherL, emitAll]⟩
  | cons c t ih =>
    simp only [pop_higherL]
    by_cases hp : precedence c ≥ precedence token
    · simp only [hp, if_true]
      by_cases hc : c = '('
      · subst hc
        exact ⟨[], by simp [emitAll]⟩
      · simp only [hc, if_false]
        obtain ⟨ps, h1, h2, h3, h4⟩ := ih (emit out c)
        refine ⟨c :: ps, by rw [List.cons_append, ← h1], ?_, ?_, h4⟩
        · intro d hd
          rcases List.mem_cons.mp hd with h | h
          · subst h; exact hc
          · exact h2 d h
        · rw [h3]; simp [emit, emitAll]
    · simp only [hp, if_false]
      refine ⟨[], by simp [emitAll], by simp, by simp [emitAll], ?_⟩
      intro d hd _
      simp at hd; subst hd; omega

theorem pop_restL_ok (l out l2 out2 : List Char) (h : pop_restL l out = .ok (l2, out2)) :
    l2 = [] ∧ (∀ c ∈ l, c ≠ '(') ∧ out2 = out ++ emitAll l := by
  induction l generalizing out with
  | nil =>
    simp only [pop_restL, Outcome.ok.injEq, Prod.mk.injEq] at h
    simp [h.1.symm, h.2.symm, emitAll]
  | cons c t ih =>
    simp only [pop_restL] at h
    by_cases hc : c = '('
    · simp [hc] at h
    · simp only [hc, if_false] at h
      obtain ⟨h1, h2, h3⟩ := ih (emit out c) h
      refine ⟨h1, ?_, by rw [h3]; simp [emit, emitAll]⟩
      intro d hd
      rcases List.mem_cons.mp hd with h | h
      · subst h; exact hc
      · exact h2 d h

theorem numberRunsFrom_run (s cur : List Char) (hc : cur ≠ []) :
    numberRunsFrom s cur =
      (cur ++ s.takeWhile isNumChar) :: numberRuns (s.dropWhile isNumChar) := by
  induction s generalizing cur with
  | nil => simp [numberRunsFrom, numberRuns, hc]
  | cons c t ih =>
    by_cases h : isNumChar c = true
    · simp only [numberRunsFrom, h, if_true, List.takeWhile, List.dropWhile]
      rw [ih (cur ++ [c]) (by simp)]
      simp
    · simp only [Bool.not_eq_true] at h
      simp [numberRunsFrom, numberRuns, h, hc, List.takeWhile, List.dropWhile]

theorem numberRuns_num (c : Char) (rest : List Char) (h : isNumChar c = true) :
    numberRuns (c :: rest) =
      (c :: rest.takeWhile isNumChar) :: numberRuns (rest.dropWhile isNumChar) := by
  have := numberRunsFrom_run rest [c] (by simp)
  simpa [numberRuns, numberRunsFrom, h] using this

theorem numberRuns_other (c : Char) (rest : List Char) (h : isNumChar c = false) :
    numberRuns (c :: rest) = numberRuns rest := by
  simp [numberRuns, numberRunsFrom, h]

theorem operatorChars_dropWhile (s : List Char) :
    operatorChars (s.dropWhile isNumChar) = operatorChars s := by
  induction s with
  | nil => rfl
  | cons c t ih =>
    by_cases h : isNumChar c = true
    · simp only [List.dropWhile, h, ih]
      simp [operatorChars, List.filter_cons, isOperatorChar, h]
    · simp [List.dropWhile, h]


theorem isOperatorChar_facts (c : Char) (h : isOperatorChar c = true) :
    isSkipped c = false ∧ isNumChar c = false ∧ c ≠ '(' ∧ c ≠ ')' := by
  simp only [isOperatorChar, Bool.and_eq_true, Bool.not_eq_true', bne_iff_ne, ne_eq] at h
  exact ⟨h.1.1.1, h.1.1.2, h.1.2, h.2⟩

theorem isOperatorChar_ne_space (c : Char) (h : isOperatorChar c = true) : c ≠ ' ' := by
  intro hc; subst hc; revert h; decide

theorem numberTokens_ops (ps : List Char) (h : ∀ c ∈ ps, isOperatorChar c = true) :
    numberTokens (ps.map fun c => [c]) = [] ∧ operatorTokens (ps.map fun c => [c]) = ps := by
  induction ps with
  | nil => simp [numberTokens, operatorTokens]
  | cons c cs ih =>
    have hc := (isOperatorChar_facts c (h c (by simp))).2.1
    obtain ⟨h1, h2⟩ := ih (fun d hd => h d (by simp [hd]))
    have e : isNumberToken [c] = false := by simp [isNumberToken, token_at, hc]
    have e2 : token_at [c] 0 = c := rfl
    simp only [numberTokens, operatorTokens] at h1 h2 ⊢
    simp only [List.map_cons, List.filter_cons, e, Bool.false_eq_true, if_false, Bool.not_false,
      if_true, h1, h2, e2, and_self]

theorem numberTokens_append (a b : List (List Char)) :
    numberTokens (a ++ b) = numberTokens a ++ numberTokens b := by
  simp [numberTokens]

theorem operatorTokens_append (a b : List (List Char)) :
    operatorTokens (a ++ b) = operatorTokens a ++ operatorTokens b := by
  simp [operatorTokens]

theorem nonParens_append_ops (ps l : List Char) (h : ∀ c ∈ ps, c ≠ '(') :
    nonParens (ps ++ l) = ps ++ nonParens l := by
  simp only [nonParens, List.filter_append]
  congr 1
  rw [List.filter_eq_self]
  intro c hc
  simpa using h c hc

theorem stackOK_split (ps l2 : List Char) (h : StackOK (ps ++ l2)) (hp : ∀ c ∈ ps, c ≠ '(') :
    StackOK l2 ∧ ∀ c ∈ ps, isOperatorChar c = true := by
  refine ⟨fun c hc => h c (by simp [hc]), fun c hc => ?_⟩
  rcases h c (by simp [hc]) with h1 | h1
  · exact absurd h1 (hp c hc)
  · exact h1

theorem tokOK_ops (ps : List Char) (h : ∀ c ∈ ps, isOperatorChar c = true) :
    ∀ t ∈ ps.map (fun c => [c]), TokOK t := by
  intro t ht
  obtain ⟨c, hc, rfl⟩ := List.mem_map.mp ht
  exact Or.inr ⟨c, rfl, h c hc⟩

/-- What the scanning loop emits: tokens, each followed by one space; the
number tokens are the digit-and-point runs of the text in order, and the
operator tokens together with what stays on the stack are the operators that
were on the stack and those of the text. -/
theorem runL_tokens (n : Nat) (s l out l1 out1 : List Char) (hn : s.length ≤ n)
    (hl : StackOK l) (h : runL s l out = .ok (l1, out1)) :
    ∃ ts, out1 = out ++ joinTokens ts ∧ StackOK l1 ∧ (∀ t ∈ ts, TokOK t) ∧
      numberTokens ts = numberRuns s ∧
      List.Perm (operatorTokens ts ++ nonParens l1) (nonParens l ++ operatorChars s) := by
  induction n generalizing s l out with
  | zero =>
    have : s = [] := List.length_eq_zero.mp (by omega)
    subst this
    rw [runL_nil] at h
    simp only [Outcome.ok.injEq, Prod.mk.injEq] at h
    obtain ⟨rfl, rfl⟩ := h
    exact ⟨[], by simp [joinTokens], hl, by simp, by simp [numberTokens, numberRuns, numberRunsFrom],
      by simp [operatorTokens, operatorChars]⟩
  | succ k ih =>
    cases s with
    | nil =>
      rw [runL_nil] at h
      simp only [Outcome.ok.injEq, Prod.mk.injEq] at h
      obtain ⟨rfl, rfl⟩ := h
      exact ⟨[], by simp [joinTokens], hl, by simp,
        by simp [numberTokens, numberRuns, numberRunsFrom], by simp [operatorTokens, operatorChars]⟩
    | cons c rest =>
      simp only [List.length_cons, Nat.add_le_add_iff_right] at hn
      rw [runL_cons] at h
      by_cases h1 : isSkipped c = true
      · have hnum : isNumChar c = false := by
          by_contra hc
          simp only [Bool.not_eq_false] at hc
          rw [isNumChar_not_skipped c hc] at h1
          exact absurd h1 (by simp)
        simp only [h1, if_true] at h
        obtain ⟨ts, e1, e2, e3, e4, e5⟩ := ih rest l out hn hl h
        refine ⟨ts, e1, e2, e3, by rw [e4, numberRuns_other c rest hnum], ?_⟩
        simpa [operatorChars, List.filter_cons, isOperatorChar, h1] using e5
      · simp only [h1, if_false] at h
        by_cases h2 : isNumChar c = true
        · simp only [h2, if_true] at h
          obtain ⟨ts, e1, e2, e3, e4, e5⟩ := ih (rest.dropWhile isNumChar) l _
            (le_trans (List.dropWhile_sublist _).length_le hn) hl h
          refine ⟨(c :: rest.takeWhile isNumChar) :: ts, ?_, e2, ?_, ?_, ?_⟩
          · rw [e1]; simp [joinTokens]
          · intro t ht
            rcases List.mem_cons.mp ht with ht | ht
            · subst ht
              left
              simp only [isNumber, List.isEmpty_cons, Bool.not_false, Bool.true_and, List.all_cons,
                h2, List.all_eq_true]
              intro x hx
              exact (List.mem_takeWhile_imp hx)
            · exact e3 t ht
          · rw [numberRuns_num c rest h2, ← e4]
            simp [numberTokens, List.filter_cons, isNumberToken, token_at, h2]
          · rw [operatorChars_dropWhile] at e5
            have : operatorChars (c :: rest) = operatorChars rest := by
              simp [operatorChars, List.filter_cons, isOperatorChar, h2]
            rw [this]
            simpa [operatorTokens, List.filter_cons, isNumberToken, token_at, h2] using e5
        · simp only [h2, if_false] at h
          simp only [Bool.not_eq_true] at h1 h2
          by_cases h3 : c = '('
          · subst h3
            simp only [if_true] at h
            cases hp : pushL l '(' with
            | ok l2 =>
              rw [hp] at h
              simp only [Outcome.bind] at h
              have hl2 : l2 = '(' :: l := by
                simp only [pushL] at hp
                split_ifs at hp
                simpa using hp.symm
              subst hl2
              obtain ⟨ts, e1, e2, e3, e4, e5⟩ := ih rest ('(' :: l) out hn
                (by intro d hd
                    rcases List.mem_cons.mp hd with hd | hd
                    · left; exact hd
                    · exact hl d hd) h
              refine ⟨ts, e1, e2, e3, by rw [e4, numberRuns_other '(' rest (by decide)], ?_⟩
              have : operatorChars ('(' :: rest) = operatorChars rest := by
                simp [operatorChars, List.filter_cons, isOperatorChar]
              rw [this]
              simpa [nonParens, List.filter_cons] using e5
            | exit f => rw [hp] at h; simp [Outcome.bind] at h
            | outOfBounds i => rw [hp] at h; simp [Outcome.bind] at h
          · simp only [h3, if_false] at h
            by_cases h4 : c = ')'
            · subst h4
              simp only [if_true, close_parenL] at h
              obtain ⟨ps, p1, p2, p3⟩ := pop_to_parenL_split l out
              generalize pop_to_parenL l out = q at h p1 p3
              obtain ⟨q1, q2⟩ := q
              simp only at p1 p3
              cases q1 with
              | nil => simp [Outcome.bind] at h
              | cons top l3 =>
                simp only [ne_eq, ite_not] at h
                by_cases ht : top = '('
                · subst ht
                  simp only [if_true, Outcome.bind] at h
                  rw [p1] at hl
                  obtain ⟨s1, s2⟩ := stackOK_split ps _ hl p2
                  obtain ⟨ts, e1, e2, e3, e4, e5⟩ := ih rest l3 q2 hn
                    (fun d hd => s1 d (by simp [hd])) h
                  obtain ⟨n1, n2⟩ := numberTokens_ops ps s2
                  refine ⟨ps.map (fun c => [c]) ++ ts, ?_, e2, ?_, ?_, ?_⟩
                  · rw [e1, p3, emitAll_eq_join, joinTokens_append, List.append_assoc]
                  · intro t ht
                    rcases List.mem_append.mp ht with ht | ht
                    · exact tokOK_ops ps s2 t ht
                    · exact e3 t ht
                  · rw [numberTokens_append, n1, List.nil_append, e4,
                      numberRuns_other ')' rest (by decide)]
                  · have : operatorChars (')' :: rest) = operatorChars rest := by
                      simp [operatorChars, List.filter_cons, isOperatorChar]
                    rw [this, operatorTokens_append, n2, p1, nonParens_append_ops ps _ p2,
                      List.append_assoc, List.append_assoc]
                    have : nonParens ('(' :: l3) = nonParens l3 := by
                      simp [nonParens, List.filter_cons]
                    rw [this]
                    exact List.Perm.append_left ps e5
                · simp [ht, Outcome.bind] at h
            · simp only [h4, if_false, operatorL] at h
              have hop : isOperatorChar c = true := by
                simp [isOperatorChar, h1, h2, h3, h4]
              obtain ⟨ps, p1, p2, p3, _⟩ := pop_higherL_split c l out
              generalize pop_higherL c l out = q at h p1 p3
              obtain ⟨q1, q2⟩ := q
              simp only at p1 p3 h
              cases hp : pushL q1 c with
              | ok l2 =>
                rw [hp] at h
                simp only [Outcome.bind] at h
                have hl2 : l2 = c :: q1 := by
                  simp only [pushL] at hp
                  split_ifs at hp
                  simpa using hp.symm
                subst hl2
                rw [p1] at hl
                obtain ⟨s1, s2⟩ := stackOK_split ps _ hl p2
                obtain ⟨ts, e1, e2, e3, e4, e5⟩ := ih rest (c :: q1) q2 hn
                  (by intro d hd
                      rcases List.mem_cons.mp hd with hd | hd
                      · subst hd; right; exact hop
                      · exact s1 d hd) h
                obtain ⟨n1, n2⟩ := numberTokens_ops ps s2
                refine ⟨ps.map (fun c => [c]) ++ ts, ?_, e2, ?_, ?_, ?_⟩
                · rw [e1, p3, emitAll_eq_join, joinTokens_append, List.append_assoc]
                · intro t ht
                  rcases List.mem_append.mp ht with ht | ht
                  · exact tokOK_ops ps s2 t ht
                  · exact e3 t ht
                · rw [numberTokens_append, n1, List.nil_append, e4, numberRuns_other c rest h2]
                · have e6 : operatorChars (c :: rest) = c :: operatorChars rest := by
                    simp [operatorChars, List.filter_cons, hop]
                  have e7 : nonParens (c :: q1) = c :: nonParens q1 := by
                    simp [nonParens, List.filter_cons, h3]
                  rw [e6, operatorTokens_append, n2, p1, nonParens_append_ops ps _ p2,
                    List.append_assoc, List.append_assoc]
                  rw [e7] at e5
                  refine List.Perm.append_left ps (e5.trans ?_)
                  exact (List.perm_middle).symm
              | exit f => rw [hp] at h; simp [Outcome.bind] at h
              | outOfBounds i => rw [hp] at h; simp [Outcome.bind] at h


theorem tokOK_facts (t : List Char) (h : TokOK t) :
    t ≠ [] ∧ (∀ c ∈ t, c ≠ ' ') ∧ (∀ c ∈ t, c ≠ '(' ∧ c ≠ ')') ∧
      (isNumberToken t = false → t.length = 1) := by
  rcases h with h | ⟨c, rfl, hc⟩
  · obtain ⟨h1, h2⟩ := isNumber_facts t h
    simp only [isNumber, Bool.and_eq_true, Bool.not_eq_true', List.all_eq_true] at h
    refine ⟨h1, h2, fun c hc => ?_, fun hn => ?_⟩
    · have := h.2 c hc
      constructor <;> (intro e; subst e; revert this; decide)
    · cases t with
      | nil => exact absurd rfl h1
      | cons c cs =>
        have := h.2 c (by simp)
        simp [isNumberToken, token_at, this] at hn
  · obtain ⟨_, _, h3, h4⟩ := isOperatorChar_facts c hc
    refine ⟨by simp, ?_, ?_, fun _ => rfl⟩
    · intro d hd
      simp only [List.mem_singleton] at hd
      subst hd; exact isOperatorChar_ne_space d hc
    · intro d hd
      simp only [List.mem_singleton] at hd
      subst hd; exact ⟨h3, h4⟩

/-- The list conversion returns a sequence of tokens, each followed by a space:
the number runs of the input in order and a permutation of its operators. -/
theorem convertL_tokens (s out : List Char) (h : convertL s = .ok out) :
    ∃ ts, out = joinTokens ts ∧ (∀ t ∈ ts, TokOK t) ∧ numberTokens ts = numberRuns s ∧
      List.Perm (operatorTokens ts) (operatorChars s) := by
  unfold convertL at h
  cases hr : runL s [] [] with
  | ok r =>
    obtain ⟨l1, out1⟩ := r
    rw [hr] at h
    simp only [Outcome.bind] at h
    cases hp : pop_restL l1 out1 with
    | ok q =>
      obtain ⟨l2, out2⟩ := q
      rw [hp] at h
      simp only [Outcome.ok.injEq] at h
      subst h
      obtain ⟨ts, e1, e2, e3, e4, e5⟩ := runL_tokens s.length s [] [] l1 out1 (le_refl _)
        (by intro c hc; simp at hc) hr
      obtain ⟨_, p2, p3⟩ := pop_restL_ok l1 out1 l2 out2 hp
      have hops : ∀ c ∈ l1, isOperatorChar c = true := by
        intro c hc
        rcases e2 c hc with h1 | h1
        · exact absurd h1 (p2 c hc)
        · exact h1
      obtain ⟨n1, n2⟩ := numberTokens_ops l1 hops
      refine ⟨ts ++ l1.map (fun c => [c]), ?_, ?_, ?_, ?_⟩
      · rw [p3, e1, emitAll_eq_join, joinTokens_append]; simp
      · intro t ht
        rcases List.mem_append.mp ht with ht | ht
        · exact e3 t ht
        · exact tokOK_ops l1 hops t ht
      · rw [numberTokens_append, n1, List.append_nil, e4]
      · rw [operatorTokens_append, n2]
        have hn : nonParens l1 = l1 := by
          simp only [nonParens]
          rw [List.filter_eq_self]
          intro c hc
          simpa using p2 c hc
        rw [hn] at e5
        simpa [nonParens] using e5
    | exit f => rw [hp] at h; simp at h
    | outOfBounds i => rw [hp] at h; simp at h
  | exit f => rw [hr] at h; simp [Outcome.bind] at h
  | outOfBounds i => rw [hr] at h; simp [Outcome.bind] at h

theorem strtok_joinTokens (ts : List (List Char)) (h : ∀ t ∈ ts, TokOK t) :
    strtok (joinTokens ts) = ts := by
  induction ts with
  | nil => rfl
  | cons t rest ih =>
    obtain ⟨h1, h2, _, _⟩ := tokOK_facts t (h t (by simp))
    simp only [joinTokens]
    rw [strtok_token t _ h2 h1, ih (fun u hu => h u (by simp [hu]))]

theorem mem_joinTokens (ts : List (List Char)) (c : Char) (h : c ∈ joinTokens ts) :
    c = ' ' ∨ ∃ t ∈ ts, c ∈ t := by
  induction ts with
  | nil => simp [joinTokens] at h
  | cons t rest ih =>
    simp only [joinTokens, List.mem_append, List.mem_cons] at h
    rcases h with h | h | h
    · right; exact ⟨t, by simp, h⟩
    · left; exact h
    · rcases ih h with h | ⟨u, hu, hc⟩
      · left; exact h
      · right; exact ⟨u, by simp [hu], hc⟩

theorem chain_spaceFree (t : List Char) (h : ∀ c ∈ t, c ≠ ' ') : NoDoubleSpace t := by
  unfold NoDoubleSpace
  induction t with
  | nil => exact List.chain'_nil
  | cons a rest ih =>
    cases rest with
    | nil => exact List.chain'_singleton a
    | cons b r =>
      rw [List.chain'_cons]
      exact ⟨fun hab => h a (by simp) hab.1, ih (fun c hc => h c (by simp [hc]))⟩

theorem joinTokens_shape (ts : List (List Char)) (h : ∀ t ∈ ts, TokOK t) :
    (∀ c ∈ (joinTokens ts).head?, c ≠ ' ') ∧ NoDoubleSpace (joinTokens ts) ∧
      (joinTokens ts ≠ [] → ∃ body c, joinTokens ts = body ++ [c, ' '] ∧ c ≠ ' ') := by
  induction ts with
  | nil => simp [joinTokens, NoDoubleSpace]
  | cons t rest ih =>
    obtain ⟨h1, h2, _, _⟩ := tokOK_facts t (h t (by simp))
    obtain ⟨i1, i2, i3⟩ := ih (fun u hu => h u (by simp [hu]))
    obtain ⟨a, t1, rfl⟩ := List.exists_cons_of_ne_nil h1
    refine ⟨?_, ?_, fun _ => ?_⟩
    · intro c hc
      simp only [joinTokens, List.cons_append, List.head?_cons, Option.mem_def,
        Option.some.injEq] at hc
      subst hc; exact h2 _ (by simp)
    · simp only [joinTokens, NoDoubleSpace]
      rw [List.chain'_append]
      refine ⟨chain_spaceFree _ h2, ?_, ?_⟩
      · cases hj : joinTokens rest with
        | nil => exact List.chain'_singleton _
        | cons b r =>
          rw [List.chain'_cons]
          rw [hj] at i1 i2
          exact ⟨fun hab => i1 b (by simp) hab.2, i2⟩
      · intro x hx y _ hxy
        exact h2 x (List.mem_of_mem_getLast? hx) hxy.1
    · by_cases hr : joinTokens rest = []
      · simp only [joinTokens, hr]
        refine ⟨(a :: t1).dropLast, (a :: t1).getLast (by simp), ?_, ?_⟩
        · have := List.dropLast_append_getLast (l := a :: t1) (by simp)
          conv_lhs => rw [← this]
          simp
        · exact h2 _ (List.getLast_mem _)
      · obtain ⟨body, c, e, hc⟩ := i3 hr
        exact ⟨a :: t1 ++ ' ' :: body, c, by simp [joinTokens, e], hc⟩

/-! ## A long line, and characters outside the five operators -/

theorem runL_plusOnes_pending (n : Nat) (out : List Char) :
    runL (plusOnes n) ['+'] out = .ok (['+'], out ++ onesOut n) := by
  induction n generalizing out with
  | zero =>
    simp only [plusOnes]
    rw [runL_cons]
    simp [show isSkipped '1' = false by decide, show isNumChar '1' = true by decide,
      runL_nil, onesOut]
  | succ k ih =>
    simp only [plusOnes]
    rw [runL_cons]
    simp only [show isSkipped '1' = false by decide, show isNumChar '1' = true by decide,
      Bool.false_eq_true, if_false, if_true, List.takeWhile, List.dropWhile,
      show isNumChar '+' = false by decide]
    rw [runL_cons]
    simp only [show isSkipped '+' = false by decide, show isNumChar '+' = false by decide,
      show ('+' = '(') = False by decide, show ('+' = ')') = False by decide,
      Bool.false_eq_true, if_false, operatorL, pop_higherL, ge_iff_le, le_refl, if_true]
    rw [pushL_ok [] '+' (by simp)]
    simp only [Outcome.bind]
    rw [ih]
    simp [emit, onesOut]

theorem convertL_plusOnes (n : Nat) :
    convertL (plusOnes (n + 1)) = .ok ('1' :: ' ' :: (onesOut n ++ ['+', ' '])) := by
  unfold convertL
  simp only [plusOnes]
  rw [runL_cons]
  simp only [show isSkipped '1' = false by decide, show isNumChar '1' = true by decide,
    Bool.false_eq_true, if_false, if_true, List.takeWhile, List.dropWhile,
    show isNumChar '+' = false by decide]
  rw [runL_cons]
  simp only [show isSkipped '+' = false by decide, show isNumChar '+' = false by decide,
    show ('+' = '(') = False by decide, show ('+' = ')') = False by decide,
    Bool.false_eq_true, if_false, operatorL, pop_higherL]
  rw [pushL_ok [] '+' (by simp)]
  simp only [Outcome.bind]
  rw [runL_plusOnes_pending]
  simp [pop_restL, emit, Outcome.bind]

theorem plusOnes_length (n : Nat) : (plusOnes n).length = 2 * n + 1 := by
  induction n with
  | zero => rfl
  | succ k ih => simp [plusOnes, ih]; omega

theorem onesOut_length (n : Nat) : (onesOut n).length = 4 * n + 2 := by
  induction n with
  | zero => rfl
  | succ k ih => simp [onesOut, ih]; omega

theorem apply_op_other (A : Arith V) (a b : V) (c : Char) (h : isBinOp c = false) :
    apply_op A a b c = .ok A.zero := by
  simp only [isBinOp, Bool.or_eq_false_iff, beq_eq_false_iff_ne, ne_eq] at h
  obtain ⟨⟨⟨⟨h1, h2⟩, h3⟩, h4⟩, h5⟩ := h
  simp [apply_op, h1, h2, h3, h4, h5]

theorem precedence_other (c : Char) (h : isBinOp c = false) : precedence c = 0 := by
  simp only [isBinOp, Bool.or_eq_false_iff, beq_eq_false_iff_ne, ne_eq] at h
  obtain ⟨⟨⟨⟨h1, h2⟩, h3⟩, h4⟩, h5⟩ := h
  simp [precedence, h1, h2, h3, h4, h5]

theorem is_operand_single (c : Char) (h : isNumChar c = false) :
    is_operand [c] = false ∧ token_at [c] 0 = c := by
  have hd : c.isDigit = false := by
    simp only [isNumChar, Bool.or_eq_false_iff] at h; exact h.1
  refine ⟨?_, rfl⟩
  simp only [is_operand, show token_at [c] 0 = c from rfl, show token_at [c] 1 = '\x00' from rfl,
    hd, Bool.false_or, Bool.and_eq_false_iff]
  right; decide

theorem convertL_single_operator (a b : List Char) (c : Char) (ha : isNumber a = true)
    (hb : isNumber b = true) (hc : isOperatorChar c = true) :
    convertL (a ++ ' ' :: c :: ' ' :: b) = .ok (a ++ ' ' :: (b ++ [' ', c, ' '])) := by
  obtain ⟨c1, c2, c3, c4⟩ := isOperatorChar_facts c hc
  unfold convertL
  rw [runL_number a _ [] [] ha (by intro d hd; simp at hd; subst hd; decide), runL_cons]
  simp only [show isSkipped ' ' = true by decide, if_true]
  rw [runL_cons]
  simp only [c1, c2, c3, c4, Bool.false_eq_true, if_false, operatorL, pop_higherL]
  rw [pushL_ok [] c (by simp)]
  simp only [Outcome.bind]
  rw [runL_cons]
  simp only [show isSkipped ' ' = true by decide, if_true]
  have hbb : b = b ++ [] := by simp
  rw [hbb, runL_number b [] [c] _ hb (by intro d hd; simp at hd), runL_nil]
  simp [pop_restL, c3, emit, Outcome.bind]

theorem evaluateL_single_operator (A : Arith V) (a b : List Char) (c : Char)
    (ha : isNumber a = true) (ha0 : (token_at a 0).isDigit = true)
    (hb : isNumber b = true) (hb0 : (token_at b 0).isDigit = true)
    (hc : isOperatorChar c = true) :
    evaluateL A (strtok (a ++ ' ' :: (b ++ [' ', c, ' ']))) =
      apply_op A (A.atof a) (A.atof b) c := by
  obtain ⟨a1, a2⟩ := isNumber_facts a ha
  obtain ⟨b1, b2⟩ := isNumber_facts b hb
  obtain ⟨_, c2, _, _⟩ := isOperatorChar_facts c hc
  obtain ⟨o1, o2⟩ := is_operand_single c c2
  have hsp := isOperatorChar_ne_space c hc
  have hs : strtok (a ++ ' ' :: (b ++ [' ', c, ' '])) = [a, b, [c]] := by
    rw [strtok_token a _ a2 a1, strtok_token b _ b2 b1]
    have := strtok_token [c] [] (by simpa using hsp) (by simp)
    simp only [List.singleton_append] at this
    rw [this, strtok_nil]
  have oa : is_operand a = true := by simp [is_operand, ha0]
  have ob : is_operand b = true := by simp [is_operand, hb0]
  rw [hs]
  simp only [evaluateL, eval_loopL, eval_tokenL, oa, ob, o1, o2, if_true, Bool.false_eq_true,
    if_false]
  rw [pushL_ok [] _ (by simp)]
  simp only [Outcome.bind]
  rw [pushL_ok [A.atof a] _ (by simp)]
  simp only []
  rcases apply_op_cases A (A.atof a) (A.atof b) c with h | ⟨v, h⟩
  · simp [h]
  · simp [h, pushL_ok ([] : List V) v (by simp)]

/-! ## Termination of the loops -/

theorem scan_succ (n : Nat) (token : Char) (rest : List Char) (S : Stacks V) (out : List Char) :
    scan (n + 1) (token :: rest) S out =
      (scan_step token rest S out).bind fun r => scan n r.1 r.2.1 r.2.2 := by
  simp only [scan, scan_step]
  split_ifs
  · rfl
  · rfl
  · cases push_op S token <;> rfl
  · cases close_paren S out <;> rfl
  · cases operator S out token <;> rfl

theorem scan_step_shorter (token : Char) (rest : List Char) (S : Stacks V) (out : List Char)
    (r : List Char × Stacks V × List Char) (h : scan_step token rest S out = .ok r) :
    r.1 <:+ rest ∧ r.1.length < (token :: rest).length := by
  have key : r.1 <:+ rest := by
    simp only [scan_step] at h
    split_ifs at h
    · cases h; exact List.suffix_refl _
    · cases h; exact List.dropWhile_suffix _
    · cases hp : push_op S token with
      | ok S1 => rw [hp] at h; cases h; exact List.suffix_refl _
      | exit f => rw [hp] at h; cases h
      | outOfBounds i => rw [hp] at h; cases h
    · cases hp : close_paren S out with
      | ok q => rw [hp] at h; cases h; exact List.suffix_refl _
      | exit f => rw [hp] at h; cases h
      | outOfBounds i => rw [hp] at h; cases h
    · cases hp : operator S out token with
      | ok q => rw [hp] at h; cases h; exact List.suffix_refl _
      | exit f => rw [hp] at h; cases h
      | outOfBounds i => rw [hp] at h; cases h
  exact ⟨key, by have := key.length_le; simp only [List.length_cons]; omega⟩

theorem scan_bound (n m : Nat) (s : List Char) (S : Stacks V) (out : List Char)
    (hn : s.length ≤ n) (hm : s.length ≤ m) : scan n s S out = scan m s S out := by
  induction n generalizing m s S out with
  | zero =>
    have : s = [] := List.length_eq_zero.mp (by omega)
    subst this
    cases m <;> simp [scan]
  | succ k ih =>
    cases s with
    | nil => cases m <;> simp [scan]
    | cons token rest =>
      cases m with
      | zero => simp at hm
      | succ j =>
        simp only [List.length_cons, Nat.add_le_add_iff_right] at hn hm
        rw [scan_succ, scan_succ]
        cases hs : scan_step token rest S out with
        | ok r =>
          have hlt := (scan_step_shorter token rest S out r hs).2
          simp only [List.length_cons] at hlt
          simp only [Outcome.bind]
          exact ih j r.1 r.2.1 r.2.2 (by omega) (by omega)
        | exit f => rfl
        | outOfBounds i => rfl

theorem pop_op_shrinks (S S1 : Stacks V) (c : Char) (h : pop_op S = .ok (c, S1)) :
    S1.top_op = S.top_op - 1 := by
  simp only [pop_op] at h
  split_ifs at h
  cases h
  rfl

theorem pop_to_paren_bound (n m : Nat) (S : Stacks V) (out : List Char) (h : op_ok S)
    (hn : op_count S ≤ n) (hm : op_count S ≤ m) :
    pop_to_paren n S out = pop_to_paren m S out := by
  induction n generalizing m S out with
  | zero =>
    have he := op_count_zero S h (by omega)
    cases m <;> simp [pop_to_paren, he]
  | succ k ih =>
    by_cases he : is_empty_op S = true
    · cases m <;> simp [pop_to_paren, he]
    · simp only [Bool.not_eq_true] at he
      obtain ⟨c, S1, hpop, hpeek, _, hok1, hcnt⟩ := pop_op_cons S h he
      cases m with
      | zero => omega
      | succ j =>
        simp only [pop_to_paren, he, Bool.false_eq_true, if_false, hpeek, Outcome.bind, hpop]
        split_ifs
        · exact ih j S1 _ hok1 (by omega) (by omega)
        · rfl

theorem pop_higher_bound (token : Char) (n m : Nat) (S : Stacks V) (out : List Char)
    (h : op_ok S) (hn : op_count S ≤ n) (hm : op_count S ≤ m) :
    pop_higher token n S out = pop_higher token m S out := by
  induction n generalizing m S out with
  | zero =>
    have he := op_count_zero S h (by omega)
    cases m <;> simp [pop_higher, he]
  | succ k ih =>
    by_cases he : is_empty_op S = true
    · cases m <;> simp [pop_higher, he]
    · simp only [Bool.not_eq_true] at he
      obtain ⟨c, S1, hpop, hpeek, _, hok1, hcnt⟩ := pop_op_cons S h he
      cases m with
      | zero => omega
      | succ j =>
        simp only [pop_higher, he, Bool.false_eq_true, if_false, hpeek, Outcome.bind, hpop]
        split_ifs
        · rfl
        · exact ih j S1 _ hok1 (by omega) (by omega)
        · rfl

theorem pop_rest_bound (n m : Nat) (S : Stacks V) (out : List Char) (h : op_ok S)
    (hn : op_count S ≤ n) (hm : op_count S ≤ m) :
    pop_rest n S out = pop_rest m S out := by
  induction n generalizing m S out with
  | zero =>
    have he := op_count_zero S h (by omega)
    cases m <;> simp [pop_rest, he]
  | succ k ih =>
    by_cases he : is_empty_op S = true
    · cases m <;> simp [pop_rest, he]
    · simp only [Bool.not_eq_true] at he
      obtain ⟨c, S1, hpop, hpeek, _, hok1, hcnt⟩ := pop_op_cons S h he
      cases m with
      | zero => omega
      | succ j =>
        simp only [pop_rest, he, Bool.false_eq_true, if_false, hpeek, Outcome.bind, hpop]
        split_ifs
        · rfl
        · exact ih j S1 _ hok1 (by omega) (by omega)

theorem eval_loop_fold (A : Arith V) (tokens : List (List Char)) (x : Outcome (Stacks V)) :
    x.bind (eval_loop A tokens) =
      tokens.foldl (fun acc t => acc.bind fun S1 => eval_token A S1 t) x := by
  induction tokens generalizing x with
  | nil => cases x <;> rfl
  | cons t rest ih =>
    simp only [List.foldl_cons]
    rw [← ih]
    cases x <;> rfl

/-! ## Precedence order on the operator stack -/

theorem pushL_eq_ok {α : Type} (l l2 : List α) (x : α) (h : pushL l x = .ok l2) :
    l2 = x :: l := by
  simp only [pushL] at h
  split_ifs at h
  simpa using h.symm

/-- After any number of iterations of the scanning loop the stack list is
ordered by precedence between the `(` markers, and its entries are entries it
started with or characters of the text. -/
theorem scanL_segInc (n : Nat) (s l out l1 out1 : List Char) (hl : SegInc l)
    (h : scanL n s l out = .ok (l1, out1)) :
    SegInc l1 ∧ ∀ c ∈ l1, c ∈ l ∨ (c ∈ s ∧ (c = '(' ∨ isOperatorChar c = true)) := by
  induction n generalizing s l out with
  | zero =>
    simp only [scanL, Outcome.ok.injEq, Prod.mk.injEq] at h
    obtain ⟨rfl, rfl⟩ := h
    exact ⟨hl, fun c hc => Or.inl hc⟩
  | succ k ih =>
    cases s with
    | nil =>
      simp only [scanL, Outcome.ok.injEq, Prod.mk.injEq] at h
      obtain ⟨rfl, rfl⟩ := h
      exact ⟨hl, fun c hc => Or.inl hc⟩
    | cons c rest =>
      simp only [scanL] at h
      by_cases h1 : isSkipped c = true
      · simp only [h1, if_true] at h
        obtain ⟨e1, e2⟩ := ih rest l out hl h
        refine ⟨e1, fun d hd => ?_⟩
        rcases e2 d hd with e | ⟨e, e3⟩
        · exact Or.inl e
        · exact Or.inr ⟨by simp [e], e3⟩
      · simp only [h1, if_false] at h
        by_cases h2 : isNumChar c = true
        · simp only [h2, if_true] at h
          obtain ⟨e1, e2⟩ := ih _ l _ hl h
          refine ⟨e1, fun d hd => ?_⟩
          rcases e2 d hd with e | ⟨e, e3⟩
          · exact Or.inl e
          · exact Or.inr ⟨List.mem_cons_of_mem _ ((List.dropWhile_sublist _).subset e), e3⟩
        · simp only [h2, if_false] at h
          simp only [Bool.not_eq_true] at h1 h2
          by_cases h3 : c = '('
          · subst h3
            simp only [if_true] at h
            cases hp : pushL l '(' with
            | ok l2 =>
              rw [hp] at h
              simp only [Outcome.bind] at h
              have := pushL_eq_ok l l2 '(' hp
              subst this
              have hs : SegInc ('(' :: l) := by
                unfold SegInc at hl ⊢
                rw [List.chain'_cons']
                exact ⟨fun y _ hx => absurd rfl hx, hl⟩
              obtain ⟨e1, e2⟩ := ih rest ('(' :: l) out hs h
              refine ⟨e1, fun d hd => ?_⟩
              rcases e2 d hd with e | ⟨e, e3⟩
              · rcases List.mem_cons.mp e with e | e
                · exact Or.inr ⟨by simp [e], Or.inl e⟩
                · exact Or.inl e
              · exact Or.inr ⟨by simp [e], e3⟩
            | exit f => rw [hp] at h; simp [Outcome.bind] at h
            | outOfBounds i => rw [hp] at h; simp [Outcome.bind] at h
          · simp only [h3, if_false] at h
            by_cases h4 : c = ')'
            · subst h4
              simp only [if_true, close_parenL] at h
              obtain ⟨ps, p1, _, _⟩ := pop_to_parenL_split l out
              generalize pop_to_parenL l out = q at h p1
              obtain ⟨q1, q2⟩ := q
              simp only at p1
              cases q1 with
              | nil => simp [Outcome.bind] at h
              | cons top l3 =>
                simp only [ne_eq, ite_not] at h
                by_cases ht : top = '('
                · subst ht
                  simp only [if_true, Outcome.bind] at h
                  have hsuf : l3 <:+ l := ⟨ps ++ ['('], by rw [p1]; simp⟩
                  obtain ⟨e1, e2⟩ := ih rest l3 q2 (List.Chain'.suffix hl hsuf) h
                  refine ⟨e1, fun d hd => ?_⟩
                  rcases e2 d hd with e | ⟨e, e3⟩
                  · exact Or.inl (hsuf.subset e)
                  · exact Or.inr ⟨by simp [e], e3⟩
                · simp [ht, Outcome.bind] at h
            · simp only [h4, if_false, operatorL] at h
              have hop : isOperatorChar c = true := by
                simp [isOperatorChar, h1, h2, h3, h4]
              obtain ⟨ps, p1, _, _, p4⟩ := pop_higherL_split c l out
              generalize pop_higherL c l out = q at h p1 p4
              obtain ⟨q1, q2⟩ := q
              simp only at p1 p4 h
              cases hp : pushL q1 c with
              | ok l2 =>
                rw [hp] at h
                simp only [Outcome.bind] at h
                have := pushL_eq_ok q1 l2 c hp
                subst this
                have hsuf : q1 <:+ l := ⟨ps, p1.symm⟩
                have hs : SegInc (c :: q1) := by
                  unfold SegInc at hl ⊢
                  rw [List.chain'_cons']
                  exact ⟨fun y hy _ hy2 => p4 y hy hy2, List.Chain'.suffix hl hsuf⟩
                obtain ⟨e1, e2⟩ := ih rest (c :: q1) q2 hs h
                refine ⟨e1, fun d hd => ?_⟩
                rcases e2 d hd with e | ⟨e, e3⟩
                · rcases List.mem_cons.mp e with e | e
                  · exact Or.inr ⟨by simp [e], Or.inr (e ▸ hop)⟩
                  · exact Or.inl (hsuf.subset e)
                · exact Or.inr ⟨by simp [e], e3⟩
              | exit f => rw [hp] at h; simp [Outcome.bind] at h
              | outOfBounds i => rw [hp] at h; simp [Outcome.bind] at h

theorem precedence_le (c : Char) : precedence c ≤ 3 := by
  unfold precedence
  split_ifs <;> omega

theorem isBinOp_of_pos (c : Char) (h : isBinOp c = true) : 1 ≤ precedence c :=
  (isBinOp_facts c h).1

theorem segInc_length (l : List Char) (h : SegInc l) (hp : ∀ c ∈ l, c ≠ '(') :
    (∀ x ∈ l.head?, l.length ≤ precedence x + 1) ∧
      ((∀ c ∈ l, isBinOp c = true) → ∀ x ∈ l.head?, l.length ≤ precedence x) := by
  induction l with
  | nil => simp
  | cons x t ih =>
    unfold SegInc at h
    rw [List.chain'_cons'] at h
    obtain ⟨i1, i2⟩ := ih h.2 (fun c hc => hp c (by simp [hc]))
    constructor
    · intro y hy
      simp only [List.head?_cons, Option.mem_def, Option.some.injEq] at hy
      subst hy
      cases t with
      | nil => simp
      | cons z u =>
        have := i1 z (by simp)
        have hlt := h.1 z (by simp) (hp x (by simp)) (hp z (by simp))
        simp only [List.length_cons] at this ⊢
        omega
    · intro hb y hy
      simp only [List.head?_cons, Option.mem_def, Option.some.injEq] at hy
      subst hy
      cases t with
      | nil => simpa using isBinOp_of_pos x (hb x (by simp))
      | cons z u =>
        have := i2 (fun c hc => hb c (by simp [hc])) z (by simp)
        have hlt := h.1 z (by simp) (hp x (by simp)) (hp z (by simp))
        simp only [List.length_cons] at this ⊢
        omega

theorem segInc_depth (l : List Char) (h : SegInc l) (hp : ∀ c ∈ l, c ≠ '(') :
    l.length ≤ 4 ∧ ((∀ c ∈ l, isBinOp c = true) → l.length ≤ 3) := by
  obtain ⟨i1, i2⟩ := segInc_length l h hp
  cases l with
  | nil => simp
  | cons x t =>
    have := precedence_le x
    exact ⟨by have := i1 x (by simp); omega, fun hb => by have := i2 hb x (by simp); omega⟩

theorem pop_to_paren_suffix (m : Nat) (S S2 : Stacks V) (out out2 : List Char) (h : op_ok S)
    (hr : pop_to_paren m S out = .ok (S2, out2)) : op_list S2 <:+ op_list S := by
  induction m generalizing S out with
  | zero => simp only [pop_to_paren, Outcome.ok.injEq, Prod.mk.injEq] at hr; rw [hr.1]
  | succ k ih =>
    by_cases he : is_empty_op S = true
    · simp only [pop_to_paren, he, if_true, Outcome.ok.injEq, Prod.mk.injEq] at hr; rw [hr.1]
    · simp only [Bool.not_eq_true] at he
      obtain ⟨c, S1, hpop, hpeek, hl, hok1, _⟩ := pop_op_cons S h he
      simp only [pop_to_paren, he, Bool.false_eq_true, if_false, hpeek, Outcome.bind, hpop] at hr
      split_ifs at hr
      · exact (ih S1 _ hok1 hr).trans ⟨[c], by rw [hl]; rfl⟩
      · simp only [Outcome.ok.injEq, Prod.mk.injEq] at hr; rw [hr.1]

theorem pop_higher_suffix (token : Char) (m : Nat) (S S2 : Stacks V) (out out2 : List Char)
    (h : op_ok S) (hr : pop_higher token m S out = .ok (S2, out2)) :
    op_list S2 <:+ op_list S := by
  induction m generalizing S out with
  | zero => simp only [pop_higher, Outcome.ok.injEq, Prod.mk.injEq] at hr; rw [hr.1]
  | succ k ih =>
    by_cases he : is_empty_op S = true
    · simp only [pop_higher, he, if_true, Outcome.ok.injEq, Prod.mk.injEq] at hr; rw [hr.1]
    · simp only [Bool.not_eq_true] at he
      obtain ⟨c, S1, hpop, hpeek, hl, hok1, _⟩ := pop_op_cons S h he
      simp only [pop_higher, he, Bool.false_eq_true, if_false, hpeek, Outcome.bind, hpop] at hr
      split_ifs at hr
      · simp only [Outcome.ok.injEq, Prod.mk.injEq] at hr; rw [hr.1]
      · exact (ih S1 _ hok1 hr).trans ⟨[c], by rw [hl]; rfl⟩
      · simp only [Outcome.ok.injEq, Prod.mk.injEq] at hr; rw [hr.1]

theorem pop_rest_suffix (m : Nat) (S S2 : Stacks V) (out out2 : List Char) (h : op_ok S)
    (hr : pop_rest m S out = .ok (S2, out2)) : op_list S2 <:+ op_list S := by
  induction m generalizing S out with
  | zero => simp only [pop_rest, Outcome.ok.injEq, Prod.mk.injEq] at hr; rw [hr.1]
  | succ k ih =>
    by_cases he : is_empty_op S = true
    · simp only [pop_rest, he, if_true, Outcome.ok.injEq, Prod.mk.injEq] at hr; rw [hr.1]
    · simp only [Bool.not_eq_true] at he
      obtain ⟨c, S1, hpop, hpeek, hl, hok1, _⟩ := pop_op_cons S h he
      simp only [pop_rest, he, Bool.false_eq_true, if_false, hpeek, Outcome.bind, hpop] at hr
      split_ifs at hr
      exact (ih S1 _ hok1 hr).trans ⟨[c], by rw [hl]; rfl⟩

/-- The state after any number of iterations of the array scanning loop, seen
as a list. -/
theorem scan_view (n : Nat) (s : List Char) (S S1 : Stacks V) (out out1 : List Char)
    (h : op_ok S) (hr : scan n s S out = .ok (S1, out1)) :
    op_ok S1 ∧ scanL n s (op_list S) out = .ok (op_list S1, out1) := by
  have := scan_sim n s S out h
  rw [hr] at this
  cases hx : scanL n s (op_list S) out with
  | ok q =>
    rw [hx] at this
    obtain ⟨e1, e2, e3⟩ := this
    simp only at e2 e3
    exact ⟨e1, by rw [e2, e3]⟩
  | exit f => rw [hx] at this; exact absurd this (by simp [Outcome.Rel])
  | outOfBounds i => rw [hx] at this; exact absurd this (by simp [Outcome.Rel])

/-! ## The claims of the specification, C11 to C20 -/

/-- C11: when the conversion succeeds, its output contains neither `(` nor
`)`. -/
theorem output_without_parentheses (S : Stacks V) (s out : List Char)
    (h : Outcome.map Prod.fst ( infix_to_postfix S s) = .ok out) :
    '(' ∉ out ∧ ')' ∉ out := by
  rw [infix_to_postfix_eq] at h
  obtain ⟨ts, rfl, h2, _, _⟩ := convertL_tokens s out h
  have key : ∀ c ∈ joinTokens ts, c ≠ '(' ∧ c ≠ ')' := by
    intro c hc
    rcases mem_joinTokens ts c hc with h1 | ⟨t, ht, hct⟩
    · subst h1; exact ⟨by decide, by decide⟩
    · exact (tokOK_facts t (h2 t ht)).2.2.1 c hct
  exact ⟨fun hm => (key _ hm).1 rfl, fun hm => (key _ hm).2 rfl⟩

/-- C11 on `(3 + 4) * 2`: the output `3 4 + 2 * ` has no parenthesis. -/
theorem output_without_parentheses_witness :
    '(' ∉ "3 4 + 2 * ".toList ∧ ')' ∉ "3 4 + 2 * ".toList :=
  output_without_parentheses initStacks "(3 + 4) * 2".toList "3 4 + 2 * ".toList (by decide)

/-- C12: when the conversion succeeds, its output is a sequence of non-empty
tokens without a space, each followed by exactly one space, and every token
that is not a number is one character long; so the output does not start
with a space, has no two neighbouring spaces, and when it is not empty it ends
with one space after a character that is not a space. -/
theorem output_token_shape (S : Stacks V) (s out : List Char)
    (h : Outcome.map Prod.fst ( infix_to_postfix S s) = .ok out) :
    (∃ ts, out = joinTokens ts ∧
      ∀ t ∈ ts, t ≠ [] ∧ (∀ c ∈ t, c ≠ ' ') ∧ (isNumberToken t = false → t.length = 1)) ∧
    (∀ c ∈ out.head?, c ≠ ' ') ∧ NoDoubleSpace out ∧
    (out ≠ [] → ∃ body c, out = body ++ [c, ' '] ∧ c ≠ ' ') := by
  rw [infix_to_postfix_eq] at h
  obtain ⟨ts, rfl, h2, _, _⟩ := convertL_tokens s out h
  obtain ⟨j1, j2, j3⟩ := joinTokens_shape ts h2
  exact ⟨⟨ts, rfl, fun t ht =>
    ⟨(tokOK_facts t (h2 t ht)).1, (tokOK_facts t (h2 t ht)).2.1,
      (tokOK_facts t (h2 t ht)).2.2.2⟩⟩, j1, j2, j3⟩

/-- C12 on `3 + 4 * 2`: the output `3 4 2 * + ` has no two neighbouring spaces. -/
theorem output_token_shape_witness : NoDoubleSpace "3 4 2 * + ".toList :=
  (output_token_shape initStacks "3 + 4 * 2".toList "3 4 2 * + ".toList (by decide)).2.2.1

/-- C14: `precedence` is 3 for `^`, 2 for `*` and `/`, 1 for `+` and `-`, and 0
for every other character, the parentheses included. -/
theorem precedence_table :
    precedence '^' = 3 ∧ precedence '*' = 2 ∧ precedence '/' = 2 ∧
    precedence '+' = 1 ∧ precedence '-' = 1 ∧ precedence '(' = 0 ∧ precedence ')' = 0 ∧
    ∀ c : Char, c ≠ '^' → c ≠ '*' → c ≠ '/' → c ≠ '+' → c ≠ '-' → precedence c = 0 := by
  refine ⟨by decide, by decide, by decide, by decide, by decide, by decide, by decide, ?_⟩
  intro c h1 h2 h3 h4 h5
  simp [precedence, h1, h2, h3, h4, h5]

/-- C14 on `@`: its precedence is 0. -/
theorem precedence_table_witness : precedence '@' = 0 :=
  precedence_table.2.2.2.2.2.2.2 '@' (by decide) (by decide) (by decide) (by decide) (by decide)

/-- C15: the line `1+1+...+1` with 128 ones and 127 plus signs has 255
characters, the most `main` reads, and its postfix text has 510 characters:
it does not fit the 256-character buffer that `main` passes. In general the
line with `n + 1` plus signs gives `4 * n + 6` characters. -/
theorem long_line_output (S : Stacks V) :
    (plusOnes 127).length = 255 ∧
    (∃ out, Outcome.map Prod.fst ( infix_to_postfix S (plusOnes 127)) = .ok out ∧
      out.length = 510 ∧ MAX_EXPRESSION_LENGTH ≤ out.length) ∧
    ∀ n, ∃ out, Outcome.map Prod.fst ( infix_to_postfix S (plusOnes (n + 1))) = .ok out ∧
      out.length = 4 * n + 6 := by
  have key : ∀ n, ∃ out, Outcome.map Prod.fst ( infix_to_postfix S (plusOnes (n + 1))) = .ok out ∧
      out.length = 4 * n + 6 := by
    intro n
    refine ⟨_, by rw [infix_to_postfix_eq]; exact convertL_plusOnes n, ?_⟩
    simp [onesOut_length]
  refine ⟨plusOnes_length 127, ?_, key⟩
  obtain ⟨out, h1, h2⟩ := key 126
  exact ⟨out, h1, h2, by rw [h2]; decide⟩

/-- C16: the loops terminate. One iteration of the scanning loop leaves a
strictly shorter suffix of the text, so the index `i` ends strictly greater
than it started, and `scan` is that iteration repeated; hence the result is
the same for every bound from the length of the text on. Each `pop_op` lowers
`top_op` by one, and the three pop loops give the same result for every bound
from the number of stack entries on. The evaluator's loop is a left fold over
the tokens: each token is handled once, in order. -/
theorem loops_terminate (A : Arith V) :
    (∀ (token : Char) (rest : List Char) (S : Stacks V) (out : List Char)
        (r : List Char × Stacks V × List Char),
      scan_step token rest S out = .ok r →
      r.1 <:+ rest ∧ r.1.length < (token :: rest).length) ∧
    (∀ (n : Nat) (token : Char) (rest : List Char) (S : Stacks V) (out : List Char),
      scan (n + 1) (token :: rest) S out =
        (scan_step token rest S out).bind fun r => scan n r.1 r.2.1 r.2.2) ∧
    (∀ (n : Nat) (s : List Char) (S : Stacks V) (out : List Char),
      s.length ≤ n → scan n s S out = scan s.length s S out) ∧
    (∀ (S S1 : Stacks V) (c : Char), pop_op S = .ok (c, S1) → S1.top_op = S.top_op - 1) ∧
    (∀ (n : Nat) (token : Char) (S : Stacks V) (out : List Char),
      op_ok S → op_count S ≤ n →
      pop_to_paren n S out = pop_to_paren (op_count S) S out ∧
      pop_higher token n S out = pop_higher token (op_count S) S out ∧
      pop_rest n S out = pop_rest (op_count S) S out) ∧
    (∀ (tokens : List (List Char)) (S : Stacks V),
      eval_loop A tokens S =
        tokens.foldl (fun acc t => acc.bind fun S1 => eval_token A S1 t) (.ok S)) := by
  refine ⟨scan_step_shorter, scan_succ, fun n s S out h => scan_bound n _ s S out h (le_refl _),
    pop_op_shrinks, fun n token S out h hn => ⟨pop_to_paren_bound n _ S out h hn (le_refl _),
      pop_higher_bound token n _ S out h hn (le_refl _), pop_rest_bound n _ S out h hn (le_refl _)⟩,
    fun tokens S => ?_⟩
  have := eval_loop_fold A tokens (.ok S)
  simpa [Outcome.bind] using this

/-- C16 on the text `12+3`: the iteration at `1` consumes the number `12` and
leaves `+3`, which is shorter. -/
theorem loops_terminate_witness :
    "+3".toList <:+ "2+3".toList ∧ "+3".toList.length < ('1' :: "2+3".toList).length :=
  (loops_terminate qArith).1 '1' "2+3".toList initStacks []
    ("+3".toList, initStacks, "12 ".toList) rfl

/-- C17 (amended): a character that is not a digit, a point, a parenthesis,
a space, a newline or a carriage return, and is none of `+ - * / ^`, is an
operator of precedence 0 whose application gives `0.0`: for digit-initial
number tokens `a` and `b` the text `a c b` converts to the tokens `a b c` and
evaluating them returns `0.0` without a diagnostic. -/
theorem unknown_operator (A : Arith V) (S S1 : Stacks V) (a b : List Char) (c : Char)
    (ha : isNumber a = true) (ha0 : (token_at a 0).isDigit = true)
    (hb : isNumber b = true) (hb0 : (token_at b 0).isDigit = true)
    (hc : isOperatorChar c = true) (hop : isBinOp c = false) :
    precedence c = 0 ∧
    Outcome.map Prod.fst ( infix_to_postfix S (a ++ ' ' :: c :: ' ' :: b)) =
      .ok (a ++ ' ' :: (b ++ [' ', c, ' '])) ∧
    Outcome.map Prod.fst ( evaluate_postfix A S1 (a ++ ' ' :: (b ++ [' ', c, ' ']))) =
      .ok A.zero ∧
    Outcome.map Prod.fst ( convert_then_evaluate A S (a ++ ' ' :: c :: ' ' :: b)) =
      .ok A.zero := by
  have hconv : Outcome.map Prod.fst ( infix_to_postfix S (a ++ ' ' :: c :: ' ' :: b)) =
      .ok (a ++ ' ' :: (b ++ [' ', c, ' '])) := by
    rw [infix_to_postfix_eq]; exact convertL_single_operator a b c ha hb hc
  have hev := evaluateL_single_operator A a b c ha ha0 hb hb0 hc
  rw [apply_op_other A _ _ c hop] at hev
  refine ⟨precedence_other c hop, hconv, ?_, ?_⟩
  · rw [evaluate_postfix_eq, hev]
  · rw [convert_ok_then_evaluate A S _ _ hconv, hev]

/-- C17 (amended) on `1 @ 2`: the tokens are `1 2 @` and the value is 0. -/
theorem unknown_operator_witness :
    Outcome.map Prod.fst ( infix_to_postfix initStacks "1 @ 2".toList) =
        .ok "1 2 @ ".toList ∧
      Outcome.map Prod.fst ( convert_then_evaluate qArith initStacks "1 @ 2".toList) = .ok 0 :=
  ⟨(unknown_operator qArith initStacks initStacks ['1'] ['2'] '@' (by decide) (by decide)
      (by decide) (by decide) (by decide) (by decide)).2.1,
    (unknown_operator qArith initStacks initStacks ['1'] ['2'] '@' (by decide) (by decide)
      (by decide) (by decide) (by decide) (by decide)).2.2.2⟩

/-- C17 as stated fails on `+`: it is not a digit, a point, a parenthesis, a
space, a newline or a carriage return, yet its precedence is 1 and `1 + 2`
evaluates to 3, not 0. -/
theorem unknown_operator_counterexample :
    isOperatorChar '+' = true ∧ precedence '+' = 1 ∧
      Outcome.map Prod.fst ( convert_then_evaluate qArith initStacks "1 + 2".toList) = .ok 3 ∧
      Outcome.map Prod.fst ( convert_then_evaluate qArith initStacks "1 + 2".toList) ≠
        .ok qArith.zero := by
  have h : Outcome.map Prod.fst ( convert_then_evaluate qArith initStacks "1 + 2".toList) =
      .ok 3 := by decide!
  refine ⟨by decide, by decide, h, ?_⟩
  rw [h]
  decide!

/-- C18: `evaluate_postfix` pushes a token as a number exactly when its first
character is a digit, or its first character is `-` and its second a digit;
every other token is applied as a binary operator given by its first character
alone. So `5 -3 +` adds the literal `-3`, and in `5 3 -` the lone `-`
subtracts. -/
theorem operand_test (A : Arith V) (S : Stacks V) :
    (∀ (c0 : Char) (rest : List Char),
      (c0.isDigit = true ∨ (c0 = '-' ∧ ∃ c1 t, rest = c1 :: t ∧ c1.isDigit = true)) →
      eval_token A S (c0 :: rest) = push_val S (A.atof (c0 :: rest))) ∧
    (∀ (c0 : Char) (rest : List Char),
      ¬ (c0.isDigit = true ∨ (c0 = '-' ∧ ∃ c1 t, rest = c1 :: t ∧ c1.isDigit = true)) →
      eval_token A S (c0 :: rest) =
        (pop_val S).bind fun r2 => (pop_val r2.2).bind fun r1 =>
          (apply_op A r1.1 r2.1 c0).bind fun v => push_val r1.2 v) ∧
    Outcome.map Prod.fst ( evaluate_postfix A S "5 -3 +".toList) =
      .ok (A.add (A.atof ['5']) (A.atof ['-', '3'])) ∧
    Outcome.map Prod.fst ( evaluate_postfix A S "5 3 -".toList) =
      .ok (A.sub (A.atof ['5']) (A.atof ['3'])) := by
  have key : ∀ (c0 : Char) (rest : List Char), is_operand (c0 :: rest) = true ↔
      (c0.isDigit = true ∨ (c0 = '-' ∧ ∃ c1 t, rest = c1 :: t ∧ c1.isDigit = true)) := by
    intro c0 rest
    cases rest with
    | nil =>
      simp only [is_operand, show token_at [c0] 0 = c0 from rfl,
        show token_at [c0] 1 = '\x00' from rfl, Bool.or_eq_true, Bool.and_eq_true, beq_iff_eq]
      constructor
      · rintro (h | ⟨_, h⟩)
        · exact Or.inl h
        · exact absurd h (by decide)
      · rintro (h | ⟨_, c1, t, h, _⟩)
        · exact Or.inl h
        · cases h
    | cons c1 t =>
      simp only [is_operand, show token_at (c0 :: c1 :: t) 0 = c0 from rfl,
        show token_at (c0 :: c1 :: t) 1 = c1 from rfl, Bool.or_eq_true, Bool.and_eq_true,
        beq_iff_eq]
      constructor
      · rintro (h | ⟨h1, h2⟩)
        · exact Or.inl h
        · exact Or.inr ⟨h1, c1, t, rfl, h2⟩
      · rintro (h | ⟨h1, d1, u, h2, h3⟩)
        · exact Or.inl h
        · simp only [List.cons.injEq] at h2
          rw [h2.1]; exact Or.inr ⟨h1, h3⟩
  refine ⟨fun c0 rest h => ?_, fun c0 rest h => ?_, ?_, ?_⟩
  · simp [eval_token, (key c0 rest).mpr h]
  · have : is_operand (c0 :: rest) = false := by
      rw [← Bool.not_eq_true]; exact fun e => h ((key c0 rest).mp e)
    simp [eval_token, this, token_at]
  · rw [evaluate_postfix_eq, show strtok "5 -3 +".toList = [['5'], ['-', '3'], ['+']] by decide]
    simp [evaluateL, eval_loopL, eval_tokenL, show is_operand ['5'] = true by decide,
      show is_operand ['-', '3'] = true by decide, show is_operand ['+'] = false by decide,
      pushL, inBounds, MAX_STACK_SIZE, Outcome.bind, apply_op, token_at]
  · rw [evaluate_postfix_eq, show strtok "5 3 -".toList = [['5'], ['3'], ['-']] by decide]
    simp [evaluateL, eval_loopL, eval_tokenL, show is_operand ['5'] = true by decide,
      show is_operand ['3'] = true by decide, show is_operand ['-'] = false by decide,
      pushL, inBounds, MAX_STACK_SIZE, Outcome.bind, apply_op, token_at]

/-- C18 on `5 -3 +` and `5 3 -`: both return 2, and the token `-3` is pushed
as a number. -/
theorem operand_test_witness :
    eval_token qArith initStacks ['-', '3'] = push_val initStacks (qArith.atof ['-', '3']) ∧
      Outcome.map Prod.fst ( evaluate_postfix qArith initStacks "5 -3 +".toList) = .ok 2 ∧
      Outcome.map Prod.fst ( evaluate_postfix qArith initStacks "5 3 -".toList) = .ok 2 :=
  ⟨(operand_test qArith initStacks).1 '-' ['3'] (Or.inr ⟨rfl, '3', [], rfl, by decide⟩),
    (operand_test qArith initStacks).2.2.1.trans (by decide!),
    (operand_test qArith initStacks).2.2.2.trans (by decide!)⟩

/-- C19: when the conversion succeeds, the tokens of the output are the tokens
of the input without the parentheses, rearranged: the number tokens are the
maximal runs of digits and points of the input in the same order, and the
operator tokens are a permutation of the operator characters of the input. -/
theorem output_rearranges_input (S : Stacks V) (s out : List Char)
    (h : Outcome.map Prod.fst ( infix_to_postfix S s) = .ok out) :
    out = joinTokens (strtok out) ∧
    numberTokens (strtok out) = numberRuns s ∧
    List.Perm (operatorTokens (strtok out)) (operatorChars s) ∧
    (∀ t ∈ strtok out, (isNumberToken t = false → t.length = 1) ∧ '(' ∉ t ∧ ')' ∉ t) := by
  rw [infix_to_postfix_eq] at h
  obtain ⟨ts, rfl, h2, h3, h4⟩ := convertL_tokens s out h
  rw [strtok_joinTokens ts h2]
  refine ⟨rfl, h3, h4, fun t ht => ⟨(tokOK_facts t (h2 t ht)).2.2.2, ?_, ?_⟩⟩
  · exact fun hm => ((tokOK_facts t (h2 t ht)).2.2.1 _ hm).1 rfl
  · exact fun hm => ((tokOK_facts t (h2 t ht)).2.2.1 _ hm).2 rfl

/-- C19 on `(3 + 4) * 2`: the numbers stay `3 4 2` and the operators `+ *` are
those of the input. -/
theorem output_rearranges_input_witness :
    numberTokens (strtok "3 4 + 2 * ".toList) = numberRuns "(3 + 4) * 2".toList ∧
      List.Perm (operatorTokens (strtok "3 4 + 2 * ".toList))
        (operatorChars "(3 + 4) * 2".toList) :=
  ⟨(output_rearranges_input initStacks "(3 + 4) * 2".toList "3 4 + 2 * ".toList
      (by decide)).2.1,
    (output_rearranges_input initStacks "(3 + 4) * 2".toList "3 4 + 2 * ".toList
      (by decide)).2.2.1⟩

/-- C20: after any number `n` of iterations of the scanning loop, on any
input, the operator-stack entries between two neighbouring `(` markers grow
strictly in precedence from the bottom to the top, and the same holds after any
number `m` of iterations of an inner pop loop started there, which only
shortens the stack. When the input has no `(`, the stack never holds more than
4 entries, and never more than 3 when its operators are among `+ - * / ^`. -/
theorem stack_precedence_increasing (S : Stacks V) (s : List Char) (n : Nat) (S1 : Stacks V)
    (out1 : List Char) (h : scan n s (reset_stacks S) [] = .ok (S1, out1)) :
    SegInc (op_list S1) ∧
    (∀ (token : Char) (m : Nat) (out : List Char) (S2 : Stacks V) (out2 : List Char),
      (pop_higher token m S1 out = .ok (S2, out2) ∨ pop_to_paren m S1 out = .ok (S2, out2) ∨
        pop_rest m S1 out = .ok (S2, out2)) →
      SegInc (op_list S2) ∧ op_count S2 ≤ op_count S1) ∧
    ('(' ∉ s → op_count S1 ≤ 4 ∧
      ((∀ c ∈ s, isOperatorChar c = true → isBinOp c = true) → op_count S1 ≤ 3)) := by
  have hr : op_ok (reset_stacks S) := by simp [op_ok, reset_stacks, MAX_STACK_SIZE]
  have hl : op_list (reset_stacks S) = [] := by simp [op_list, op_count, reset_stacks, stack_list]
  obtain ⟨hok, hv⟩ := scan_view n s (reset_stacks S) S1 [] out1 hr h
  rw [hl] at hv
  obtain ⟨e1, e2⟩ := scanL_segInc n s [] [] _ _ (by simp [SegInc]) hv
  refine ⟨e1, ?_, ?_⟩
  · intro token m out S2 out2 hcase
    have hsuf : op_list S2 <:+ op_list S1 := by
      rcases hcase with hc | hc | hc
      · exact pop_higher_suffix token m S1 S2 out out2 hok hc
      · exact pop_to_paren_suffix m S1 S2 out out2 hok hc
      · exact pop_rest_suffix m S1 S2 out out2 hok hc
    refine ⟨List.Chain'.suffix e1 hsuf, ?_⟩
    have := hsuf.length_le
    rwa [op_list_length, op_list_length] at this
  · intro hp
    have hnp : ∀ c ∈ op_list S1, c ≠ '(' := by
      intro c hc e
      rcases e2 c hc with h1 | ⟨h1, _⟩
      · simp at h1
      · exact hp (e ▸ h1)
    obtain ⟨d1, d2⟩ := segInc_depth (op_list S1) e1 hnp
    rw [op_list_length] at d1 d2
    refine ⟨d1, fun hb => d2 (fun c hc => ?_)⟩
    rcases e2 c hc with h1 | ⟨h1, h2 | h2⟩
    · simp at h1
    · exact absurd h2 (hnp c hc)
    · exact hb c h1 h2

/-- C20 on `1 + 2 * 3 ^ 4`: after the whole scan the stack holds `^ * +` from
the top, three entries in increasing precedence. -/
theorem stack_precedence_increasing_witness :
    ∃ (S1 : Stacks ℚ) (out1 : List Char),
      scan 13 "1 + 2 * 3 ^ 4".toList (reset_stacks initStacks) [] = .ok (S1, out1) ∧
        op_list S1 = ['^', '*', '+'] ∧ SegInc (op_list S1) ∧ op_count S1 ≤ 3 :=
  ⟨_, _, rfl, rfl,
    (stack_precedence_increasing initStacks "1 + 2 * 3 ^ 4".toList 13 _ _ rfl).1,
    ((stack_precedence_increasing initStacks "1 + 2 * 3 ^ 4".toList 13 _ _ rfl).2.2
      (by decide)).2 (by decide)⟩

end Projoct
